import Mathlib

/-!
Shallow embedding of the `netlify-hybrid-images` build plugin
(`plugins/netlify-hybrid-images/src/setup.js`, current version with
retry/backoff, cache manifest and conditional requests).

Strings are modelled as sequences of code points (`List Char` internally,
`String` at the interface).  All path functions model the Node `path.posix`
implementations; `decodeURIComponent` is modelled as an ASCII/UTF-8
percent-decoder returning `none` where the JS builtin throws `URIError`.
-/

/-- Split a character list on every occurrence of `sep`
    (model of JS `String.prototype.split` with a single-character separator:
    `splitOnChar c l` always returns at least one (possibly empty) part). -/
def splitOnChar (sep : Char) : List Char → List (List Char)
  | [] => [[]]
  | c :: cs =>
    match splitOnChar sep cs with
    | [] => [[]]
    | s :: rest => if c = sep then [] :: s :: rest else (c :: s) :: rest

/-- Join segments with `'/'` (model of `Array.prototype.join('/')`). -/
def joinSegs : List (List Char) → List Char
  | [] => []
  | [s] => s
  | s :: rest => s ++ '/' :: joinSegs rest

/-- `pat` occurs as a contiguous subsequence of the list
    (model of JS `String.prototype.includes`). -/
def containsSeq (pat : List Char) : List Char → Bool
  | [] => pat.isEmpty
  | c :: rest => pat.isPrefixOf (c :: rest) || containsSeq pat rest

/-- Hexadecimal digit value, as accepted by `decodeURIComponent`. -/
def hexVal (c : Char) : Option Nat :=
  if '0' ≤ c ∧ c ≤ '9' then some (c.toNat - '0'.toNat)
  else if 'a' ≤ c ∧ c ≤ 'f' then some (c.toNat - 'a'.toNat + 10)
  else if 'A' ≤ c ∧ c ≤ 'F' then some (c.toNat - 'A'.toNat + 10)
  else none

/-- Model of the JS builtin `decodeURIComponent` on code-point lists:
    `%XX` escape sequences are decoded as UTF-8 (multi-byte sequences must be
    written as consecutive escapes), other characters pass through unchanged.
    `none` models the `URIError` the builtin throws on malformed input. -/
def decodeURIComponentList : List Char → Option (List Char)
  | [] => some []
  | '%' :: h1 :: h2 :: rest =>
    match hexVal h1, hexVal h2 with
    | some a, some b =>
      let byte := 16 * a + b
      if byte < 0x80 then
        (Char.ofNat byte :: ·) <$> decodeURIComponentList rest
      else if 0xC2 ≤ byte ∧ byte ≤ 0xDF then
        match rest with
        | '%' :: g1 :: g2 :: rest2 =>
          match hexVal g1, hexVal g2 with
          | some c1, some d1 =>
            let b2 := 16 * c1 + d1
            if 0x80 ≤ b2 ∧ b2 < 0xC0 then
              (Char.ofNat ((byte - 0xC0) * 0x40 + (b2 - 0x80)) :: ·) <$>
                decodeURIComponentList rest2
            else none
          | _, _ => none
        | _ => none
      else if 0xE0 ≤ byte ∧ byte ≤ 0xEF then
        match rest with
        | '%' :: g1 :: g2 :: '%' :: g3 :: g4 :: rest2 =>
          match hexVal g1, hexVal g2, hexVal g3, hexVal g4 with
          | some c1, some d1, some c2, some d2 =>
            let b2 := 16 * c1 + d1
            let b3 := 16 * c2 + d2
            let cp := (byte - 0xE0) * 0x1000 + (b2 - 0x80) * 0x40 + (b3 - 0x80)
            if (0x80 ≤ b2 ∧ b2 < 0xC0) ∧ (0x80 ≤ b3 ∧ b3 < 0xC0) ∧
                0x800 ≤ cp ∧ (cp < 0xD800 ∨ 0xDFFF < cp) then
              (Char.ofNat cp :: ·) <$> decodeURIComponentList rest2
            else none
          | _, _, _, _ => none
        | _ => none
      else if 0xF0 ≤ byte ∧ byte ≤ 0xF4 then
        match rest with
        | '%' :: g1 :: g2 :: '%' :: g3 :: g4 :: '%' :: g5 :: g6 :: rest2 =>
          match hexVal g1, hexVal g2, hexVal g3, hexVal g4, hexVal g5, hexVal g6 with
          | some c1, some d1, some c2, some d2, some c3, some d3 =>
            let b2 := 16 * c1 + d1
            let b3 := 16 * c2 + d2
            let b4 := 16 * c3 + d3
            let cp := (byte - 0xF0) * 0x40000 + (b2 - 0x80) * 0x1000 +
                (b3 - 0x80) * 0x40 + (b4 - 0x80)
            if (0x80 ≤ b2 ∧ b2 < 0xC0) ∧ (0x80 ≤ b3 ∧ b3 < 0xC0) ∧
                (0x80 ≤ b4 ∧ b4 < 0xC0) ∧ 0x10000 ≤ cp ∧ cp ≤ 0x10FFFF then
              (Char.ofNat cp :: ·) <$> decodeURIComponentList rest2
            else none
          | _, _, _, _, _, _ => none
        | _ => none
      else none
    | _, _ => none
  | '%' :: _ => none
  | c :: rest => (c :: ·) <$> decodeURIComponentList rest

/-- One step of Node's `normalizeString` segment processing: empty and `'.'`
    segments are dropped, `'..'` pops the previous segment unless the previous
    segment is itself `'..'` (then, when above-root segments are allowed, a
    further `'..'` is kept; for absolute paths it is dropped), other segments
    are pushed.  The stack is kept in reverse order (head = last segment). -/
def normStep (allowAboveRoot : Bool) (stack : List (List Char)) (seg : List Char) :
    List (List Char) :=
  if seg = [] ∨ seg = ['.'] then stack
  else if seg = ['.', '.'] then
    match stack with
    | [] => if allowAboveRoot then [['.', '.']] else []
    | top :: rest =>
      if top = ['.', '.'] then
        (if allowAboveRoot then ['.', '.'] :: top :: rest else top :: rest)
      else rest
  else seg :: stack

/-- The segment stack Node\'s `normalizeString` computes, in order: `'.'` and
    empty segments dropped, `'..'` resolved against the stack (kept only for
    relative paths). -/
def normSegments (l : List Char) : List (List Char) :=
  ((splitOnChar '/' l).foldl (normStep (!(decide (l.head? = some '/')))) []).reverse

/-- Model of Node `path.posix.normalize` on code-point lists. -/
def normalizeList (l : List Char) : List Char :=
  if l = [] then ['.']
  else
    let isAbs : Bool := decide (l.head? = some '/')
    let trailing : Bool := decide (l.getLast? = some '/')
    let core := joinSegs (normSegments l)
    if core = [] then
      (if isAbs then ['/'] else if trailing then ['.', '/'] else ['.'])
    else
      let withTrail := if trailing then core ++ ['/'] else core
      if isAbs then '/' :: withTrail else withTrail

/-- Model of Node `path.posix.join`: empty arguments are dropped, the rest are
    concatenated with `'/'` and the result is normalized; with nothing to join
    the result is `'.'`. -/
def posixJoin (parts : List (List Char)) : List Char :=
  let nonempty := parts.filter (· ≠ [])
  if nonempty = [] then ['.'] else normalizeList (joinSegs nonempty)

/-- Model of Node `path.posix.resolve root p` for the two-argument call made by
    the plugin (`path.resolve(projectRoot, options.publicDir)`); `projectRoot`
    is an absolute path in the source, so the working directory is never
    consulted. -/
def posixResolve2 (root p : List Char) : List Char :=
  let combined :=
    if p = [] then root ++ ['/']
    else if p.head? = some '/' then p ++ ['/']
    else root ++ '/' :: (p ++ ['/'])
  let isAbs : Bool := decide (combined.head? = some '/')
  let stack := ((splitOnChar '/' combined).foldl (normStep (!isAbs)) []).reverse
  let core := joinSegs stack
  if isAbs then (if core = [] then ['/'] else '/' :: core)
  else (if core = [] then ['.'] else core)

/-- Configuration handed to `resolveMediaPath` by the orchestrator. -/
structure MediaCtx where
  mediaPrefix : String
  mediaDir : String
  mediaOutputDir : String
deriving Repr, DecidableEq

/-- The record returned by `resolveMediaPath` on success. -/
structure ResolvedMedia where
  cacheKey : String
  remoteUrl : String
  downloadUrl : String
  filePath : String
  localPath : String
  localPathWithQuery : String
deriving Repr, DecidableEq

/-- `remainder.split('?')` destructured as `[rawPath, query = '']`:
    the first part and the (defaulted) second part. -/
def questionParts (l : List Char) : List Char × List Char :=
  match splitOnChar '?' l with
  | [] => ([], [])
  | [p] => (p, [])
  | p :: q :: _ => (p, q)

/-- `posixPath.split('/').filter(Boolean)` of the normalized decoded path. -/
def pathSegments (decoded : List Char) : List (List Char) :=
  (splitOnChar '/' (normalizeList decoded)).filter (· ≠ [])

/-- The part of `url` after the media prefix and before the first `'?'`
    (meaningful when `url` starts with the prefix). -/
def rawPathOf (url : String) (ctx : MediaCtx) : List Char :=
  (questionParts (url.data.drop ctx.mediaPrefix.data.length)).1

/-- The query component `remainder.split('?')[1] ?? ''`. -/
def queryOf (url : String) (ctx : MediaCtx) : List Char :=
  (questionParts (url.data.drop ctx.mediaPrefix.data.length)).2

/-- Model of `resolveMediaPath` (setup.js).  A `URIError` thrown by
    `decodeURIComponent` on a malformed escape is modelled as a non-match. -/
def resolveMediaPath (url : String) (ctx : MediaCtx) : Option ResolvedMedia :=
  if ¬ ctx.mediaPrefix.data.isPrefixOf url.data then none
  else
    let rawPath := rawPathOf url ctx
    let query := queryOf url ctx
    if rawPath = [] then none
    else
      match decodeURIComponentList rawPath with
      | none => none
      | some decodedPath =>
        let posixPath := normalizeList decodedPath
        if ['.', '.', '/'].isPrefixOf posixPath ∨ containsSeq ['.', '.', '\\'] posixPath ∨
            posixPath = ['.', '.'] then none
        else
          let segments := (splitOnChar '/' posixPath).filter (· ≠ [])
          if segments = [] then none
          else
            let localPath : List Char := '/' :: joinSegs (ctx.mediaDir.data :: segments)
            some {
              cacheKey := ⟨ctx.mediaDir.data ++ '/' :: joinSegs segments⟩
              remoteUrl := url
              downloadUrl := ⟨ctx.mediaPrefix.data ++ rawPath⟩
              filePath := ⟨posixJoin (ctx.mediaOutputDir.data :: segments)⟩
              localPath := ⟨localPath⟩
              localPathWithQuery :=
                if query = [] then ⟨localPath⟩ else ⟨localPath ++ '?' :: query⟩ }

/-- JSON-like content tree (the Content Document data model). -/
inductive JsonVal where
  | str (s : String)
  | num (n : Int)
  | boolean (b : Bool)
  | null
  | arr (items : List JsonVal)
  | obj (fields : List (String × JsonVal))

mutual

/-- Value part of `transformContent` (setup.js): every string in the tree is
    replaced by its image under the transformer (strings the transformer keeps
    unchanged are kept in place). -/
def transformJson (t : String → String) : JsonVal → JsonVal
  | .str s => .str (t s)
  | .num n => .num n
  | .boolean b => .boolean b
  | .null => .null
  | .arr xs => .arr (transformJsonList t xs)
  | .obj kvs => .obj (transformJsonFields t kvs)

def transformJsonList (t : String → String) : List JsonVal → List JsonVal
  | [] => []
  | x :: xs => transformJson t x :: transformJsonList t xs

def transformJsonFields (t : String → String) :
    List (String × JsonVal) → List (String × JsonVal)
  | [] => []
  | (k, v) :: kvs => (k, transformJson t v) :: transformJsonFields t kvs

end

mutual

/-- `modified` flag of `transformContent`: whether the transformer changes at
    least one string in the tree. -/
def jsonModified (t : String → String) : JsonVal → Bool
  | .str s => t s ≠ s
  | .num _ => false
  | .boolean _ => false
  | .null => false
  | .arr xs => jsonModifiedList t xs
  | .obj kvs => jsonModifiedFields t kvs

def jsonModifiedList (t : String → String) : List JsonVal → Bool
  | [] => false
  | x :: xs => jsonModified t x || jsonModifiedList t xs

def jsonModifiedFields (t : String → String) : List (String × JsonVal) → Bool
  | [] => false
  | (_, v) :: kvs => jsonModified t v || jsonModifiedFields t kvs

end

mutual

/-- The strings of a content document, in the order `transformContent`'s
    `visit` encounters them. -/
def jsonStrings : JsonVal → List String
  | .str s => [s]
  | .num _ => []
  | .boolean _ => []
  | .null => []
  | .arr xs => jsonStringsList xs
  | .obj kvs => jsonStringsFields kvs

def jsonStringsList : List JsonVal → List String
  | [] => []
  | x :: xs => jsonStrings x ++ jsonStringsList xs

def jsonStringsFields : List (String × JsonVal) → List String
  | [] => []
  | (_, v) :: kvs => jsonStrings v ++ jsonStringsFields kvs

end

/-- A manifest / metadata record.  The same record shape serves as
    `asset.metadata`, the metadata object produced by `downloadAsset` and the
    values of the persisted cache manifest (in the source these are plain JS
    objects whose field sets overlap; absent/undefined fields are `none`). -/
structure ManifestEntry where
  etag : Option String := none
  lastModified : Option String := none
  size : Option Nat := none
  downloadedAt : Option String := none
  checkedAt : Option String := none
  remoteUrl : Option String := none
  localPath : Option String := none
deriving Repr, DecidableEq

/-- The persisted cache manifest: cache key to entry. -/
abbrev Manifest : Type := String → Option ManifestEntry

/-- A work item of the scheduler: `resolveMediaPath` result plus the cached
    metadata attached during scanning. -/
structure Asset where
  cacheKey : String
  remoteUrl : String
  downloadUrl : String
  filePath : String
  localPath : String
  localPathWithQuery : String
  metadata : Option ManifestEntry := none
deriving Repr, DecidableEq

/-- JS truthiness of an optional string (`undefined` and `''` are falsy). -/
def truthyS : Option String → Bool
  | none => false
  | some s => !s.isEmpty

/-- What `fetch` resolves to on one attempt: a response
    (status, statusText, validator headers, body bytes) or a rejection
    (error `name` and `message`; a timeout abort has name `"AbortError"`). -/
inductive FetchOutcome where
  | response (status : Nat) (statusText : String) (etag lastModified : Option String)
      (body : List Nat)
  | netError (name message : String)

/-- Outcome tag of one asset download. -/
inductive DlStatus where
  | downloaded
  | skipped
  | failed
deriving Repr, DecidableEq

/-- What `downloadAsset` returns. -/
structure DownloadResult where
  status : DlStatus
  metadata : Option ManifestEntry := none
deriving Repr, DecidableEq

/-- `downloadAsset` result together with its observable effects: the backoff
    delays slept (in order) and the bodies written to the asset's file. -/
structure DlTrace where
  result : DownloadResult
  delays : List Nat
  writes : List (List Nat)
deriving Repr, DecidableEq

/-- A `DlTrace` together with the headers object each attempt's request
    carried (`none` models `undefined`: no conditional headers). -/
structure DlRun where
  toDlTrace : DlTrace
  headers : Option (List (String × String))
deriving Repr, DecidableEq

/-- The message of the `Error` thrown for a non-ok response. -/
def httpErrorMessage (status : Nat) (statusText : String) : String :=
  "HTTP " ++ toString status ++ " " ++ statusText

/-- The transient-network markers the catch block looks for in an error
    message (`socket hang up`, `ECONNRESET`, `ETIMEDOUT`, `ECONNREFUSED`). -/
def retriableMessage (msg : String) : Bool :=
  containsSeq "socket hang up".data msg.data ||
  containsSeq "ECONNRESET".data msg.data ||
  containsSeq "ETIMEDOUT".data msg.data ||
  containsSeq "ECONNREFUSED".data msg.data

/-- The catch block's retriability test: an abort (timeout) or a message
    naming a transient connection error. -/
def isRetriableError (name msg : String) : Bool :=
  name = "AbortError" || retriableMessage msg

/-- `skipUnchanged && fileExists && Boolean(metadata && (etag || lastModified))`. -/
def shouldUseConditional (skipUnchanged fileExists : Bool) (m : Option ManifestEntry) :
    Bool :=
  skipUnchanged && fileExists &&
    (match m with
     | none => false
     | some e => truthyS e.etag || truthyS e.lastModified)

/-- The headers object passed to `fetch`: `none` models `undefined` (no
    conditional request), otherwise the `If-None-Match` / `If-Modified-Since`
    validators present in the cached metadata. -/
def requestHeadersFor (skipUnchanged fileExists : Bool) (m : Option ManifestEntry) :
    Option (List (String × String)) :=
  if shouldUseConditional skipUnchanged fileExists m then
    some
      ((if truthyS ((m.map ManifestEntry.etag).join) then
          [("If-None-Match", ((m.map ManifestEntry.etag).join).getD "")]
        else []) ++
       (if truthyS ((m.map ManifestEntry.lastModified).join) then
          [("If-Modified-Since", ((m.map ManifestEntry.lastModified).join).getD "")]
        else []))
  else none

/-- The retry loop of `downloadAsset`.  `attempt` is the 1-based attempt
    counter; `fuel` is the number of loop iterations still available
    (`maxRetries - attempt + 1` at every call site), so `fuel = 0` is the
    loop's fall-through `return { status: 'failed' }`.  The per-attempt
    timeout is not a separate parameter: an aborted attempt is an oracle
    outcome `netError "AbortError" _`. -/
def dlLoop (fetchAt : Nat → FetchOutcome) (priorMeta : Option ManifestEntry)
    (now : String) (retryDelay maxRetries : Nat) : Nat → Nat → DlTrace
  | _, 0 => ⟨⟨.failed, none⟩, [], []⟩
  | attempt, fuel + 1 =>
    match fetchAt attempt with
    | .response status statusText etag lastModified body =>
      if status = 304 then
        ⟨⟨.skipped, some { priorMeta.getD {} with checkedAt := some now }⟩, [], []⟩
      else if 200 ≤ status ∧ status < 300 then
        ⟨⟨.downloaded,
          some { etag := etag, lastModified := lastModified, size := some body.length,
                 downloadedAt := some now, checkedAt := some now }⟩, [], [body]⟩
      else if 400 ≤ status ∧ status < 500 ∧ status ≠ 429 then
        -- `throw new Error(...)`, caught by this iteration's catch block
        if retriableMessage (httpErrorMessage status statusText) ∧ attempt < maxRetries
        then
          let t := dlLoop fetchAt priorMeta now retryDelay maxRetries (attempt + 1) fuel
          ⟨t.result, retryDelay * attempt :: t.delays, t.writes⟩
        else ⟨⟨.failed, none⟩, [], []⟩
      else
        -- server error / rate limit / other non-ok status
        if attempt < maxRetries then
          let t := dlLoop fetchAt priorMeta now retryDelay maxRetries (attempt + 1) fuel
          ⟨t.result, retryDelay * attempt :: t.delays, t.writes⟩
        else ⟨⟨.failed, none⟩, [], []⟩
    | .netError name msg =>
      if isRetriableError name msg ∧ attempt < maxRetries then
        let t := dlLoop fetchAt priorMeta now retryDelay maxRetries (attempt + 1) fuel
        ⟨t.result, retryDelay * attempt :: t.delays, t.writes⟩
      else ⟨⟨.failed, none⟩, [], []⟩

/-- Per-asset environment for one run of `downloadAsset`: the fetch oracle
    (what each attempt observes), whether the local file exists, and the
    serialized current time. -/
structure FetchEnv where
  fetchAt : Nat → FetchOutcome
  fileExists : Bool
  now : String

/-- Model of `downloadAsset` (setup.js): computes the conditional headers
    once, then starts the attempt loop at attempt 1 with `maxRetries`
    iterations available. -/
def downloadAsset (a : Asset) (env : FetchEnv) (maxRetries retryDelay : Nat)
    (skipUnchanged : Bool) : DlRun :=
  ⟨dlLoop env.fetchAt a.metadata env.now retryDelay maxRetries 1 maxRetries,
   requestHeadersFor skipUnchanged env.fileExists a.metadata⟩

/-- The scheduler's aggregate: counters, upsert map and removal set.
    JS `manifestUpdates` is a `Map` (insertion order, `set` overwrites) and
    `manifestRemovals` a `Set` (duplicates ignored). -/
structure SchedulerResult where
  success : Nat
  skipped : Nat
  failed : Nat
  manifestUpdates : List (String × ManifestEntry)
  manifestRemovals : List String
deriving Repr, DecidableEq

/-- `Map.set` on an association list: overwrite in place or append. -/
def setAssoc (m : List (String × ManifestEntry)) (k : String) (v : ManifestEntry) :
    List (String × ManifestEntry) :=
  match m with
  | [] => [(k, v)]
  | (k', v') :: rest => if k' = k then (k, v) :: rest else (k', v') :: setAssoc rest k v

/-- `Set.add` on a list. -/
def addOnce (s : List String) (k : String) : List String :=
  if k ∈ s then s else s ++ [k]

/-- The body of a scheduler worker for one claimed asset: run the download,
    bump the matching counter, record the manifest delta. -/
def schedStep (dl : Asset → DownloadResult) (acc : SchedulerResult) (a : Asset) :
    SchedulerResult :=
  let r := dl a
  { success := acc.success + (if r.status = .downloaded then 1 else 0)
    skipped := acc.skipped + (if r.status = .skipped then 1 else 0)
    failed := acc.failed + (if r.status ≠ .downloaded ∧ r.status ≠ .skipped then 1 else 0)
    manifestUpdates :=
      match r.metadata with
      | some m =>
        setAssoc acc.manifestUpdates a.cacheKey
          { m with remoteUrl := some a.remoteUrl, localPath := some a.localPath }
      | none => acc.manifestUpdates
    manifestRemovals :=
      if r.status = .failed then addOnce acc.manifestRemovals a.cacheKey
      else acc.manifestRemovals }

/-- `Math.min(Math.max(1, concurrency), assets.length)`: the number of workers
    spawned for a non-empty asset list. -/
def numWorkers (concurrency : Int) (n : Nat) : Int :=
  min (max 1 concurrency) (n : Int)

/-- Model of `downloadWithConcurrency` (setup.js).  The workers share a single
    index and claim each asset exactly once; since every asset's download
    depends only on that asset and the counters/map/set aggregation is
    insensitive to interleaving (the claimed keys are disjoint), the aggregate
    is the left fold over the asset list whenever at least one worker exists,
    and the empty aggregate when none does. -/
def downloadWithConcurrency (dl : Asset → DownloadResult) (assets : List Asset)
    (concurrency : Int) : SchedulerResult :=
  if assets = [] then ⟨0, 0, 0, [], []⟩
  else if numWorkers concurrency assets.length ≤ 0 then ⟨0, 0, 0, [], []⟩
  else assets.foldl (schedStep dl) ⟨0, 0, 0, [], []⟩

/-- Association-list lookup for the scanner's asset map. -/
def lookupAsset : List (String × Asset) → String → Option Asset
  | [], _ => none
  | (k, a) :: rest, q => if k = q then some a else lookupAsset rest q

/-- One string visited during scanning: if it resolves and its cache key is
    new, register the asset (with the cached manifest metadata attached when a
    manifest file is configured); first occurrence wins. -/
def registerString (ctx : MediaCtx) (manifest : Manifest) (useManifest : Bool)
    (m : List (String × Asset)) (s : String) : List (String × Asset) :=
  match resolveMediaPath s ctx with
  | none => m
  | some r =>
    if (lookupAsset m r.cacheKey).isSome then m
    else
      m ++ [(r.cacheKey,
        { cacheKey := r.cacheKey, remoteUrl := r.remoteUrl,
          downloadUrl := r.downloadUrl, filePath := r.filePath,
          localPath := r.localPath, localPathWithQuery := r.localPathWithQuery,
          metadata := if useManifest then manifest r.cacheKey else none })]

/-- The strings of one content file in visit order (unparsable files
    contribute nothing). -/
def docStrings (d : String × Option JsonVal) : List String :=
  match d.2 with
  | some v => jsonStrings v
  | none => []

/-- The scan loop of the orchestrator: fold every string of every parsable
    JSON file into the asset map. -/
def scanAssetMap (ctx : MediaCtx) (manifest : Manifest) (useManifest : Bool)
    (docs : List (String × Option JsonVal)) : List (String × Asset) :=
  docs.foldl (fun m d => (docStrings d).foldl (registerString ctx manifest useManifest) m) []

/-- `{...previous, ...data}` for a manifest write-back.  In both branches that
    produce an update the `data` object carries every field of `previous`
    (the `skipped` metadata is a spread of the previous entry, the
    `downloaded` metadata object literally lists every field, and the
    scheduler adds `remoteUrl`/`localPath`), so the spread merge is `data`. -/
def mergeEntry (_previous : Option ManifestEntry) (data : ManifestEntry) :
    ManifestEntry :=
  data

/-- The orchestrator's upsert loop over `downloadResult.manifestUpdates`. -/
def applyUpdates (m : Manifest) (ups : List (String × ManifestEntry)) : Manifest :=
  ups.foldl
    (fun acc kv => fun q => if q = kv.1 then some (mergeEntry (acc kv.1) kv.2) else acc q)
    m

/-- The orchestrator's removal loop: delete each key that is present, and
    report whether any deletion happened. -/
def deleteKeys (m : Manifest) (ks : List String) : Manifest × Bool :=
  ks.foldl
    (fun acc k =>
      if (acc.1 k).isSome then (fun q => if q = k then none else acc.1 q, true)
      else acc)
    (m, false)

/-- Plugin options (the fields of `defaultOptions` in
    `plugins/netlify-hybrid-images/index.js` that the setup function reads).
    `timeout` only bounds a single attempt's wall clock; in the model an
    aborted attempt is an oracle outcome, so the field is carried but not
    consulted. -/
structure RunConfig where
  enabled : Bool := true
  publicDir : String := "public"
  mediaDir : String := "media"
  concurrency : Int := 2
  cacheManifest : Option String := some "hybrid-images-manifest.json"
  skipUnchanged : Bool := true
  rewriteContent : Bool := true
  maxRetries : Nat := 3
  retryDelay : Nat := 1000
  timeout : Nat := 30000

/-- `x || d` for the numeric option defaults (`0` is falsy in JS). -/
def natOrDefault (n d : Nat) : Nat :=
  if n = 0 then d else n

/-- `path.resolve(projectRoot, options.publicDir)`. -/
def publicDirOf (projectRoot : String) (o : RunConfig) : String :=
  ⟨posixResolve2 projectRoot.data o.publicDir.data⟩

/-- `path.join(publicDir, options.mediaDir)`. -/
def mediaOutputDirOf (projectRoot : String) (o : RunConfig) : String :=
  ⟨posixJoin [(publicDirOf projectRoot o).data, o.mediaDir.data]⟩

/-- `options.cacheManifest ? path.join(mediaOutputDir, options.cacheManifest) : null`. -/
def manifestPathOf (projectRoot : String) (o : RunConfig) : Option String :=
  match o.cacheManifest with
  | some cm =>
    if cm = "" then none
    else some ⟨posixJoin [(mediaOutputDirOf projectRoot o).data, cm.data]⟩
  | none => none

/-- The world a run observes: project root, `KIRBY_URL`, the content tree
    (each JSON file with its parse result; `none` = malformed), the parsed
    on-disk manifest (empty function = missing file), per-URL fetch oracle,
    `fs.existsSync` oracle and the serialized current time. -/
structure World where
  projectRoot : String
  kirbyUrl : Option String
  contentDirExists : Bool
  docs : List (String × Option JsonVal)
  manifestDisk : Manifest
  fetchFor : String → Nat → FetchOutcome
  fileExists : String → Bool
  now : String

/-- Everything observable a run produces: the content files afterwards, which
    of them were written back, the work list, the scheduler aggregate, the
    computed manifest path and the manifest file's content afterwards. -/
structure RunResult where
  docsAfter : List (String × Option JsonVal)
  contentWrites : List String
  assets : List Asset := []
  downloadResult : Option SchedulerResult := none
  manifestPath : Option String := none
  manifestWritten : Bool := false
  manifestAfter : Manifest

/-- The rewrite pass's string transformer: a resolving URL becomes its local
    public path (query preserved), anything else is untouched. -/
def rewriteTransformer (ctx : MediaCtx) : String → String :=
  fun s =>
    match resolveMediaPath s ctx with
    | some m => m.localPathWithQuery
    | none => s

/-- The content tree after the rewrite pass: parsable files with at least one
    substitution are transformed (and written back), the rest are untouched. -/
def rewriteDocs (ctx : MediaCtx) (docs : List (String × Option JsonVal)) :
    List (String × Option JsonVal) :=
  docs.map fun d =>
    match d.2 with
    | some v =>
      if jsonModified (rewriteTransformer ctx) v then
        (d.1, some (transformJson (rewriteTransformer ctx) v))
      else d
    | none => d

/-- The paths of the files the rewrite pass writes back. -/
def rewrittenPaths (ctx : MediaCtx) (fileEntries : List (String × JsonVal)) :
    List String :=
  (fileEntries.filter fun e => jsonModified (rewriteTransformer ctx) e.2).map Prod.fst

/-- The tail of the orchestrator after the scheduler returns: manifest
    write-back, the failed-asset guard, and the conditional rewrite pass. -/
def finishRun (docs : List (String × Option JsonVal)) (ctx : MediaCtx)
    (fileEntries : List (String × JsonVal)) (manifestPath : Option String)
    (manifestDisk : Manifest) (manifest : Manifest) (assets : List Asset)
    (res : SchedulerResult) (rewriteContent : Bool) : RunResult :=
  let manifestState : Manifest × Bool :=
    match manifestPath with
    | none => (manifestDisk, false)
    | some _ =>
      let afterUps := applyUpdates manifest res.manifestUpdates
      let (afterDels, delChanged) := deleteKeys afterUps res.manifestRemovals
      (afterDels, !res.manifestUpdates.isEmpty || delChanged)
  let base : RunResult :=
    { docsAfter := docs, contentWrites := [], assets := assets,
      downloadResult := some res, manifestPath := manifestPath,
      manifestWritten := manifestState.2, manifestAfter := manifestState.1 }
  if 0 < res.failed then base
  else if rewriteContent then
    { base with
      docsAfter := rewriteDocs ctx docs
      contentWrites := rewrittenPaths ctx fileEntries }
  else base

/-- Model of the plugin entry point `netlifyHybridImagesSetup` (setup.js,
    current version): early exits, path computation, manifest load, scanning,
    scheduling, manifest write-back, failure guard and rewrite pass. -/
def netlifyHybridImagesSetup (w : World) (o : RunConfig) : RunResult :=
  let noRun : RunResult :=
    { docsAfter := w.docs, contentWrites := [], manifestAfter := w.manifestDisk }
  if ¬ o.enabled then noRun
  else
    match w.kirbyUrl with
    | none => noRun
    | some kurl =>
      if kurl = "" then noRun
      else
        let mediaPrefix : String := kurl ++ "/media/"
        let mediaOutputDir := mediaOutputDirOf w.projectRoot o
        let manifestPath := manifestPathOf w.projectRoot o
        let manifest : Manifest :=
          if manifestPath.isSome then w.manifestDisk else fun _ => none
        let skipUnchanged := o.skipUnchanged && manifestPath.isSome
        if ¬ w.contentDirExists then { noRun with manifestPath := manifestPath }
        else if w.docs.isEmpty then { noRun with manifestPath := manifestPath }
        else
          let ctx : MediaCtx := ⟨mediaPrefix, o.mediaDir, mediaOutputDir⟩
          let assetMap := scanAssetMap ctx manifest manifestPath.isSome w.docs
          let fileEntries := w.docs.filterMap fun d => d.2.map fun v => (d.1, v)
          if assetMap.isEmpty then { noRun with manifestPath := manifestPath }
          else
            let assets := assetMap.map Prod.snd
            let dl : Asset → DownloadResult := fun a =>
              (downloadAsset a ⟨w.fetchFor a.downloadUrl, w.fileExists a.filePath, w.now⟩
                (natOrDefault o.maxRetries 3) (natOrDefault o.retryDelay 1000)
                skipUnchanged).toDlTrace.result
            let res := downloadWithConcurrency dl assets o.concurrency
            finishRun w.docs ctx fileEntries manifestPath w.manifestDisk manifest
              assets res o.rewriteContent

/-- The default plugin options (`defaultOptions` in
    `plugins/netlify-hybrid-images/index.js`). -/
def defaultOptions : RunConfig := {}

/-- Association-list lookup for the scheduler's manifest-update map. -/
def lookupEntry : List (String × ManifestEntry) → String → Option ManifestEntry
  | [], _ => none
  | (k, v) :: rest, q => if k = q then some v else lookupEntry rest q

/-- A clean path segment: non-empty, slash-free, and neither `'.'` nor
    `'..'`. -/
abbrev cleanSeg (s : List Char) : Prop :=
  s ≠ [] ∧ '/' ∉ s ∧ s ≠ ['.'] ∧ s ≠ ['.', '.']

/-- A normalized absolute directory path: `'/'` followed by at least one
    clean segment, joined by `'/'`.  The media output directory the plugin
    computes with `path.resolve`/`path.join` has this shape. -/
def cleanAbsDir (m : List Char) : Prop :=
  ∃ segs, segs ≠ [] ∧ (∀ s ∈ segs, cleanSeg s) ∧ m = '/' :: joinSegs segs

/-- The decoded-and-normalized path of a URL escapes the media root: it
    begins with `'../'` or is exactly `'..'`. -/
abbrev escapesRoot (p : List Char) : Prop :=
  ['.', '.', '/'].isPrefixOf p = true ∨ p = ['.', '.']

/-- Invariant of the `normStep` stack: the `'..'` entries form a suffix of
    the (reversed) stack, i.e. a prefix of the segment sequence. -/
def ddSuffix : List (List Char) → Prop
  | [] => True
  | s :: rest => if s = ['.', '.'] then ∀ x ∈ rest, x = ['.', '.'] else ddSuffix rest

theorem dlLoop_failed_no_metadata (f : Nat → FetchOutcome) (m : Option ManifestEntry)
    (now : String) (rD mR : Nat) :
    ∀ fuel attempt, (dlLoop f m now rD mR attempt fuel).result.status = .failed →
      (dlLoop f m now rD mR attempt fuel).result.metadata = none := by
  intro fuel
  induction fuel with
  | zero => intro attempt _; rfl
  | succ n ih =>
    intro attempt h
    simp only [dlLoop] at h ⊢
    cases hf : f attempt with
    | response status statusText etag lastModified body =>
      simp only [hf] at h ⊢
      by_cases h304 : status = 304
      · simp [h304] at h
      · simp only [if_neg h304] at h ⊢
        by_cases hok : 200 ≤ status ∧ status < 300
        · simp [hok] at h
        · simp only [if_neg hok] at h ⊢
          by_cases h4xx : 400 ≤ status ∧ status < 500 ∧ status ≠ 429
          · simp only [if_pos h4xx] at h ⊢
            by_cases hr : retriableMessage (httpErrorMessage status statusText) ∧
                attempt < mR
            · simp only [if_pos hr] at h ⊢; exact ih (attempt + 1) h
            · simp [if_neg hr]
          · simp only [if_neg h4xx] at h ⊢
            by_cases hlt : attempt < mR
            · simp only [if_pos hlt] at h ⊢; exact ih (attempt + 1) h
            · simp [if_neg hlt]
    | netError name msg =>
      simp only [hf] at h ⊢
      by_cases hr : isRetriableError name msg = true ∧ attempt < mR
      · simp only [if_pos hr] at h ⊢; exact ih (attempt + 1) h
      · simp [if_neg hr]

/-- C4: retry/backoff correctness.  Two 503 responses followed by a 200, with
    at least three attempts allowed, yield outcome `downloaded` after exactly
    the two backoff sleeps `retryDelay * 1` and `retryDelay * 2`; for a
    positive base delay these strictly increase. -/
theorem C4_retry_backoff (a : Asset) (env : FetchEnv) (mR rD : Nat) (sU : Bool)
    (t1 t2 t3 : String) (e1 l1 e2 l2 e3 l3 : Option String) (b1 b2 b3 : List Nat)
    (h1 : env.fetchAt 1 = .response 503 t1 e1 l1 b1)
    (h2 : env.fetchAt 2 = .response 503 t2 e2 l2 b2)
    (h3 : env.fetchAt 3 = .response 200 t3 e3 l3 b3)
    (hm : 3 ≤ mR) :
    (downloadAsset a env mR rD sU).toDlTrace.result.status = .downloaded ∧
    (downloadAsset a env mR rD sU).toDlTrace.delays = [rD * 1, rD * 2] ∧
    (0 < rD → rD * 1 < rD * 2) := by
  obtain ⟨k, rfl⟩ : ∃ k, mR = k + 3 := ⟨mR - 3, by omega⟩
  have e1' : (1 : Nat) < k + 3 := by omega
  have e2' : (2 : Nat) < k + 3 := by omega
  refine ⟨?_, ?_, fun h => by omega⟩ <;>
  · show _ = _
    unfold downloadAsset
    simp only [dlLoop, h1, h2, h3]
    norm_num [e1', e2']

/-- C4 witness: a concrete three-attempt scenario. -/
theorem C4_retry_backoff_witness :
    let env : FetchEnv :=
      ⟨fun n => if n = 1 ∨ n = 2 then .response 503 "Service Unavailable" none none []
                else .response 200 "OK" none none [1, 2],
       true, "2026-01-01T00:00:00.000Z"⟩
    let a : Asset := { cacheKey := "media/a.jpg", remoteUrl := "r",
                       downloadUrl := "d", filePath := "f", localPath := "l",
                       localPathWithQuery := "l" }
    (downloadAsset a env 3 1000 true).toDlTrace.result.status = .downloaded ∧
    (downloadAsset a env 3 1000 true).toDlTrace.delays = [1000 * 1, 1000 * 2] ∧
    (0 < 1000 → 1000 * 1 < 1000 * 2) :=
  C4_retry_backoff _ _ 3 1000 true
    "Service Unavailable" "Service Unavailable" "OK"
    none none none none none none [] [] [1, 2]
    rfl rfl rfl (by omega)

/-- C5 counterexample: a `404` response whose status text is `"ECONNRESET"`
    makes the thrown error message match the transient-network markers, so the
    catch block retries the client error; with a `200` on the second attempt
    the download even succeeds.  This contradicts the claim that every
    `4xx ≠ 429` response ends the download immediately with outcome
    `failed`. -/
theorem C5_counterexample :
    let env : FetchEnv :=
      ⟨fun n => if n = 1 then .response 404 "ECONNRESET" none none []
                else .response 200 "OK" none none [9],
       true, "2026-01-01T00:00:00.000Z"⟩
    let a : Asset := { cacheKey := "media/a.jpg", remoteUrl := "r",
                       downloadUrl := "d", filePath := "f", localPath := "l",
                       localPathWithQuery := "l" }
    (downloadAsset a env 3 1000 true).toDlTrace.result.status = .downloaded ∧
    (downloadAsset a env 3 1000 true).toDlTrace.delays = [1000] := by
  constructor <;> rfl

/-- C5 (amended): a response with status in `[400, 500)` other than `429`
    whose error message `"HTTP <status> <statusText>"` contains none of the
    transient-network markers (`socket hang up`, `ECONNRESET`, `ETIMEDOUT`,
    `ECONNREFUSED`) ends `downloadAsset` at once: outcome `failed`, no
    metadata, no further attempt (no backoff sleep) and no file write,
    regardless of how many retries remain. -/
theorem C5_terminal_4xx (a : Asset) (env : FetchEnv) (mR rD : Nat) (sU : Bool)
    (status : Nat) (statusText : String) (tg lm : Option String) (b : List Nat)
    (h1 : env.fetchAt 1 = .response status statusText tg lm b)
    (h4 : 400 ≤ status) (h5 : status < 500) (h429 : status ≠ 429)
    (hmsg : retriableMessage (httpErrorMessage status statusText) = false) :
    (downloadAsset a env mR rD sU).toDlTrace =
      ⟨⟨.failed, none⟩, [], []⟩ := by
  unfold downloadAsset
  cases mR with
  | zero => rfl
  | succ n =>
    simp only [dlLoop, h1]
    have h304 : status ≠ 304 := by omega
    have hok : ¬ (200 ≤ status ∧ status < 300) := by omega
    rw [if_neg h304, if_neg hok, if_pos ⟨h4, h5, h429⟩, if_neg]
    simp [hmsg]

/-- C5 witness: a plain `404 Not Found` at the first attempt. -/
theorem C5_terminal_4xx_witness :
    let env : FetchEnv :=
      ⟨fun _ => .response 404 "Not Found" none none [],
       true, "2026-01-01T00:00:00.000Z"⟩
    let a : Asset := { cacheKey := "media/a.jpg", remoteUrl := "r",
                       downloadUrl := "d", filePath := "f", localPath := "l",
                       localPathWithQuery := "l" }
    (downloadAsset a env 5 1000 true).toDlTrace = ⟨⟨.failed, none⟩, [], []⟩ :=
  C5_terminal_4xx _ _ 5 1000 true 404 "Not Found" none none []
    rfl (by omega) (by omega) (by omega) (by decide)

/-- C6: conditional-request correctness.  With `skipUnchanged` on, the local
    file present and a cached entry with a (non-empty) etag, the request
    carries `If-None-Match` with that etag; a `304` yields outcome `skipped`,
    writes nothing, and the returned metadata is the prior entry with only
    `checkedAt` replaced by the current time (etag, lastModified and size
    kept). -/
theorem C6_conditional_request (a : Asset) (env : FetchEnv) (mR rD : Nat)
    (e : ManifestEntry) (et : String)
    (hmeta : a.metadata = some e) (hetag : e.etag = some et) (hne : et ≠ "")
    (hfe : env.fileExists = true)
    (t : String) (tg lm : Option String) (b : List Nat)
    (h1 : env.fetchAt 1 = .response 304 t tg lm b) (hm : 1 ≤ mR) :
    (∃ hs, (downloadAsset a env mR rD true).headers = some hs ∧
      ("If-None-Match", et) ∈ hs) ∧
    (downloadAsset a env mR rD true).toDlTrace.result.status = .skipped ∧
    (downloadAsset a env mR rD true).toDlTrace.writes = [] ∧
    (downloadAsset a env mR rD true).toDlTrace.result.metadata =
      some { e with checkedAt := some env.now } := by
  obtain ⟨n, rfl⟩ : ∃ n, mR = n + 1 := ⟨mR - 1, by omega⟩
  have htr : truthyS e.etag = true := by
    rw [hetag]
    simpa [truthyS] using fun hc => hne ((String.isEmpty_iff et).mp hc)
  refine ⟨?_, ?_, ?_, ?_⟩
  · refine ⟨("If-None-Match", et) ::
      (if truthyS e.lastModified then [("If-Modified-Since", e.lastModified.getD "")]
       else []), ?_, by simp⟩
    unfold downloadAsset requestHeadersFor
    rw [if_pos (by simp [shouldUseConditional, hfe, hmeta, htr])]
    simp [hmeta, hetag, hetag ▸ htr]
  all_goals
    simp only [downloadAsset, dlLoop, h1, hmeta]
    norm_num

/-- C6 witness: cached entry with etag `"abc"`, a `304` response. -/
theorem C6_conditional_request_witness :
    let e : ManifestEntry :=
      { etag := some "abc", lastModified := some "Mon, 01 Jan 2024 00:00:00 GMT",
        size := some 5 }
    let a : Asset := { cacheKey := "media/a.jpg", remoteUrl := "r",
                       downloadUrl := "d", filePath := "f", localPath := "l",
                       localPathWithQuery := "l", metadata := some e }
    let env : FetchEnv :=
      ⟨fun _ => .response 304 "Not Modified" none none [], true, "T1"⟩
    (∃ hs, (downloadAsset a env 3 1000 true).headers = some hs ∧
      ("If-None-Match", "abc") ∈ hs) ∧
    (downloadAsset a env 3 1000 true).toDlTrace.result.status = .skipped ∧
    (downloadAsset a env 3 1000 true).toDlTrace.writes = [] ∧
    (downloadAsset a env 3 1000 true).toDlTrace.result.metadata =
      some { e with checkedAt := some env.now } :=
  C6_conditional_request _ _ 3 1000 _ "abc" rfl rfl (by decide) rfl
    "Not Modified" none none [] rfl (by omega)

theorem schedStep_sum (dl : Asset → DownloadResult) (assets : List Asset) :
    ∀ acc : SchedulerResult,
      (assets.foldl (schedStep dl) acc).success +
        (assets.foldl (schedStep dl) acc).skipped +
        (assets.foldl (schedStep dl) acc).failed =
      acc.success + acc.skipped + acc.failed + assets.length := by
  induction assets with
  | nil => intro acc; simp
  | cons a rest ih =>
    intro acc
    rw [List.foldl_cons, List.length_cons, ih]
    rcases h : (dl a).status <;> simp [schedStep, h] <;> omega

/-- C10: scheduler totality for any integer concurrency bound.  For a
    non-empty asset list the worker count is `min(max(1, concurrency), n)`,
    which is always at least one, and the aggregate counters always satisfy
    `success + skipped + failed = n` — the spec's `concurrency ≥ 1`
    precondition is not needed. -/
theorem C10_concurrency_total (dl : Asset → DownloadResult) (assets : List Asset)
    (concurrency : Int) (h : assets ≠ []) :
    numWorkers concurrency assets.length =
      min (max 1 concurrency) (assets.length : Int) ∧
    1 ≤ numWorkers concurrency assets.length ∧
    (downloadWithConcurrency dl assets concurrency).success +
      (downloadWithConcurrency dl assets concurrency).skipped +
      (downloadWithConcurrency dl assets concurrency).failed = assets.length := by
  have hn : 1 ≤ (assets.length : Int) := by
    have := List.length_pos.mpr h
    omega
  have hw : 1 ≤ numWorkers concurrency assets.length := by
    unfold numWorkers
    omega
  refine ⟨rfl, hw, ?_⟩
  unfold downloadWithConcurrency
  rw [if_neg h, if_neg (by omega)]
  simpa using schedStep_sum dl assets ⟨0, 0, 0, [], []⟩

/-- C10 witness: one asset, concurrency `-5`. -/
theorem C10_concurrency_total_witness :
    let dl : Asset → DownloadResult := fun _ => ⟨.downloaded, none⟩
    let a : Asset := { cacheKey := "media/a.jpg", remoteUrl := "r",
                       downloadUrl := "d", filePath := "f", localPath := "l",
                       localPathWithQuery := "l" }
    numWorkers (-5) [a].length = min (max 1 (-5)) ([a].length : Int) ∧
    1 ≤ numWorkers (-5) [a].length ∧
    (downloadWithConcurrency dl [a] (-5)).success +
      (downloadWithConcurrency dl [a] (-5)).skipped +
      (downloadWithConcurrency dl [a] (-5)).failed = [a].length :=
  C10_concurrency_total _ _ (-5) (by simp)

/-- C2: where the cache manifest actually lives.  With the plugin's default
    options and project root `/repo`, the computed manifest path is
    `<publicDir>/<mediaDir>/hybrid-images-manifest.json` — inside the
    directory that becomes the deployed site, not outside it. -/
theorem C2_manifestPath_inside_public_tree :
    manifestPathOf "/repo" defaultOptions =
      some "/repo/public/media/hybrid-images-manifest.json" ∧
    publicDirOf "/repo" defaultOptions = "/repo/public" ∧
    ((publicDirOf "/repo" defaultOptions).data ++ ['/']).isPrefixOf
      "/repo/public/media/hybrid-images-manifest.json".data = true := by
  refine ⟨by decide, by decide, by decide⟩

theorem splitOnChar_ne_nil (sep : Char) (l : List Char) :
    splitOnChar sep l ≠ [] := by
  cases l with
  | nil => simp [splitOnChar]
  | cons c cs =>
    simp only [splitOnChar]
    cases splitOnChar sep cs with
    | nil => simp
    | cons s rest =>
      by_cases h : c = sep <;> simp [h]

theorem splitOnChar_not_mem {sep : Char} {a : List Char} (h : sep ∉ a) :
    splitOnChar sep a = [a] := by
  induction a with
  | nil => rfl
  | cons c cs ih =>
    have hc : c ≠ sep := fun hc => h (hc ▸ List.mem_cons_self c cs)
    have hcs : sep ∉ cs := fun hm => h (List.mem_cons_of_mem c hm)
    simp only [splitOnChar, ih hcs, if_neg hc]

theorem splitOnChar_append {sep : Char} {a : List Char} (b : List Char)
    (h : sep ∉ a) : splitOnChar sep (a ++ sep :: b) = a :: splitOnChar sep b := by
  induction a with
  | nil =>
    simp only [List.nil_append, splitOnChar, if_pos rfl]
    cases hs : splitOnChar sep b with
    | nil => exact absurd hs (splitOnChar_ne_nil sep b)
    | cons s rest => rfl
  | cons c cs ih =>
    have hc : c ≠ sep := fun hc => h (hc ▸ List.mem_cons_self c cs)
    have hcs : sep ∉ cs := fun hm => h (List.mem_cons_of_mem c hm)
    simp only [List.cons_append, splitOnChar, List.append_eq, ih hcs, if_neg hc]

theorem questionParts_single {path q : List Char} (hp : '?' ∉ path)
    (hq : '?' ∉ q) : questionParts (path ++ '?' :: q) = (path, q) := by
  unfold questionParts
  rw [splitOnChar_append q hp, splitOnChar_not_mem hq]

theorem splitOnChar_decomp (sep : Char) (l : List Char) :
    splitOnChar sep l =
      if sep ∈ l then
        l.takeWhile (· ≠ sep) :: splitOnChar sep ((l.dropWhile (· ≠ sep)).drop 1)
      else [l] := by
  induction l with
  | nil => simp [splitOnChar]
  | cons c cs ih =>
    by_cases hc : c = sep
    · subst hc
      cases hs : splitOnChar c cs with
      | nil => exact absurd hs (splitOnChar_ne_nil c cs)
      | cons s rest => simp [splitOnChar, hs]
    · simp only [splitOnChar]
      rw [ih]
      by_cases hin : sep ∈ cs
      · rw [if_pos hin, if_pos (List.mem_cons_of_mem c hin)]
        simp [hc]
      · rw [if_neg hin, if_neg (by
          intro hm
          rcases List.mem_cons.mp hm with h1 | h2
          · exact hc h1.symm
          · exact hin h2)]
        simp [hc]

/-- The two components `remainder.split('?')` contributes are the part of the
    remainder before the first `'?'` and the part strictly between the first
    and second `'?'` (empty when there is no `'?'`). -/
theorem questionParts_eq (l : List Char) :
    questionParts l =
      (l.takeWhile (· ≠ '?'),
       ((l.dropWhile (· ≠ '?')).drop 1).takeWhile (· ≠ '?')) := by
  unfold questionParts
  rw [splitOnChar_decomp]
  by_cases h : '?' ∈ l
  · rw [if_pos h, splitOnChar_decomp]
    by_cases h2 : '?' ∈ (l.dropWhile (· ≠ '?')).drop 1
    · rw [if_pos h2]
    · rw [if_neg h2]
      have ht2 : ((l.dropWhile (· ≠ '?')).drop 1).takeWhile (· ≠ '?') =
          (l.dropWhile (· ≠ '?')).drop 1 :=
        List.takeWhile_eq_self_iff.mpr fun x hx => by
          simp only [ne_eq, decide_eq_true_eq]
          exact fun he => h2 (he ▸ hx)
      rw [ht2]
  · rw [if_neg h]
    have ht : l.takeWhile (· ≠ '?') = l :=
      List.takeWhile_eq_self_iff.mpr fun x hx => by
        simp only [ne_eq, decide_eq_true_eq]
        exact fun he => h (he ▸ hx)
    have hd : l.dropWhile (· ≠ '?') = [] :=
      List.dropWhile_eq_nil_iff.mpr fun x hx => by
        simp only [ne_eq, decide_eq_true_eq]
        exact fun he => h (he ▸ hx)
    rw [ht, hd]
    rfl

theorem mk_data (l : List Char) : (⟨l⟩ : String).data = l := rfl

theorem isPrefixOf_append_self (l t : List Char) : l.isPrefixOf (l ++ t) = true := by
  induction l with
  | nil => cases t <;> rfl
  | cons c cs ih => simp [List.isPrefixOf, ih]

theorem joinSegs_cons {segs : List (List Char)} (d : List Char) (h : segs ≠ []) :
    joinSegs (d :: segs) = d ++ '/' :: joinSegs segs := by
  cases segs with
  | nil => exact absurd rfl h
  | cons s rest => rfl

/-- C9 counterexample: for a remote URL whose query itself contains a `'?'`
    (legal in a URL query), the rewriter keeps only the part of the query
    before the second `'?'`: `a.jpg?w=4?x=2` is rewritten to
    `/media/a.jpg?w=4`, not to `/media/a.jpg?w=4?x=2` as the claim's
    "entire original query string" requires. -/
theorem C9_counterexample :
    let ctx : MediaCtx := ⟨"https://cms.example/media/", "media", "/repo/public/media"⟩
    let url : String := "https://cms.example/media/a.jpg?w=4?x=2"
    (resolveMediaPath url ctx).map ResolvedMedia.localPathWithQuery =
      some "/media/a.jpg?w=4" ∧
    queryOf url ctx ≠ [] ∧
    rewriteTransformer ctx url = "/media/a.jpg?w=4" ∧
    "/media/a.jpg?w=4" ≠ "/media/a.jpg" ++ "?" ++ "w=4?x=2" := by
  refine ⟨by decide, by decide, by decide, by decide⟩

/-- C9 (amended): for every string the resolver accepts — whatever its query
    shape — the rewriter replaces it with `'/' ++ mediaDir ++ '/' ++` the
    normalized decoded path segments joined by `'/'`, followed by `'?'` plus
    the portion of the original query before any second `'?'`
    (`remainder.split('?')[1] ?? ''`) exactly when that portion is non-empty;
    query-less URLs and URLs whose kept query portion is empty get no `'?'`
    at all, and the whole query survives iff it contains no `'?'` of its
    own. -/
theorem C9_rewrite_shape (ctx : MediaCtx) (url : String) (r : ResolvedMedia)
    (hres : resolveMediaPath url ctx = some r) :
    ∃ dec : List Char,
      decodeURIComponentList
          ((url.data.drop ctx.mediaPrefix.data.length).takeWhile (· ≠ '?')) =
        some dec ∧
      r.localPathWithQuery =
        ⟨'/' :: ((ctx.mediaDir.data ++ '/' :: joinSegs (pathSegments dec)) ++
          (if (((url.data.drop ctx.mediaPrefix.data.length).dropWhile
                  (· ≠ '?')).drop 1).takeWhile (· ≠ '?') = []
           then []
           else '?' :: (((url.data.drop ctx.mediaPrefix.data.length).dropWhile
                  (· ≠ '?')).drop 1).takeWhile (· ≠ '?')))⟩ ∧
      rewriteTransformer ctx url = r.localPathWithQuery := by
  have hres0 := hres
  have hraw : rawPathOf url ctx =
      (url.data.drop ctx.mediaPrefix.data.length).takeWhile (· ≠ '?') := by
    unfold rawPathOf
    rw [questionParts_eq]
  have hq : queryOf url ctx =
      (((url.data.drop ctx.mediaPrefix.data.length).dropWhile
          (· ≠ '?')).drop 1).takeWhile (· ≠ '?') := by
    unfold queryOf
    rw [questionParts_eq]
  rw [resolveMediaPath] at hres
  split at hres
  · exact absurd hres (by simp)
  simp only [hraw, hq] at hres
  split at hres
  · exact absurd hres (by simp)
  cases hdec : decodeURIComponentList
      ((url.data.drop ctx.mediaPrefix.data.length).takeWhile (· ≠ '?')) with
  | none =>
    rw [hdec] at hres
    exact absurd hres (by simp)
  | some dec =>
    rw [hdec] at hres
    split at hres
    · exact absurd hres (by simp)
    rename_i decPath heq
    rw [Option.some_inj] at heq
    subst heq
    split at hres
    · exact absurd hres (by simp)
    split at hres
    · exact absurd hres (by simp)
    rename_i hsegs
    rw [Option.some_inj] at hres
    subst hres
    refine ⟨dec, rfl, ?_, by simp [rewriteTransformer, hres0]⟩
    have hfil : (splitOnChar '/' (normalizeList dec)).filter (· ≠ []) =
        pathSegments dec := rfl
    have hne : pathSegments dec ≠ [] := by
      intro hnil
      exact hsegs (by simpa [pathSegments] using hnil)
    have hjoin := joinSegs_cons ctx.mediaDir.data hne
    try dsimp only
    rw [hfil, hjoin]
    by_cases hQ : (((url.data.drop ctx.mediaPrefix.data.length).dropWhile
        (· ≠ '?')).drop 1).takeWhile (· ≠ '?') = []
    · rw [if_pos hQ, if_pos hQ, List.append_nil]
    · rw [if_neg hQ, if_neg hQ, List.cons_append]

/-- C9 witness: the amended shape theorem applied at the spec's own example
    `pages/home/hero.jpg?w=400`, whose query has no second `'?'` and therefore
    survives whole: the rewriter yields `/media/pages/home/hero.jpg?w=400`. -/
theorem C9_rewrite_shape_witness :
    resolveMediaPath "https://cms.example/media/pages/home/hero.jpg?w=400"
        ⟨"https://cms.example/media/", "media", "/repo/public/media"⟩ =
      some { cacheKey := "media/pages/home/hero.jpg",
             remoteUrl := "https://cms.example/media/pages/home/hero.jpg?w=400",
             downloadUrl := "https://cms.example/media/pages/home/hero.jpg",
             filePath := "/repo/public/media/pages/home/hero.jpg",
             localPath := "/media/pages/home/hero.jpg",
             localPathWithQuery := "/media/pages/home/hero.jpg?w=400" } ∧
    rewriteTransformer ⟨"https://cms.example/media/", "media", "/repo/public/media"⟩
        "https://cms.example/media/pages/home/hero.jpg?w=400" =
      "/media/pages/home/hero.jpg?w=400" := by
  refine ⟨by decide, ?_⟩
  obtain ⟨dec, hdec, hshape, hrw⟩ := C9_rewrite_shape
    ⟨"https://cms.example/media/", "media", "/repo/public/media"⟩
    "https://cms.example/media/pages/home/hero.jpg?w=400"
    { cacheKey := "media/pages/home/hero.jpg",
      remoteUrl := "https://cms.example/media/pages/home/hero.jpg?w=400",
      downloadUrl := "https://cms.example/media/pages/home/hero.jpg",
      filePath := "/repo/public/media/pages/home/hero.jpg",
      localPath := "/media/pages/home/hero.jpg",
      localPathWithQuery := "/media/pages/home/hero.jpg?w=400" }
    (by decide)
  exact hrw

theorem finishRun_downloadResult (docs : List (String × Option JsonVal))
    (ctx : MediaCtx) (fe : List (String × JsonVal)) (mp : Option String)
    (md m : Manifest) (assets : List Asset) (res : SchedulerResult) (rc : Bool) :
    (finishRun docs ctx fe mp md m assets res rc).downloadResult = some res := by
  unfold finishRun
  repeat' split
  all_goals rfl

theorem finishRun_failed_frozen (docs : List (String × Option JsonVal))
    (ctx : MediaCtx) (fe : List (String × JsonVal)) (mp : Option String)
    (md m : Manifest) (assets : List Asset) (res : SchedulerResult) (rc : Bool)
    (hf : 0 < res.failed) :
    (finishRun docs ctx fe mp md m assets res rc).contentWrites = [] ∧
    (finishRun docs ctx fe mp md m assets res rc).docsAfter = docs := by
  unfold finishRun
  rw [if_pos hf]
  exact ⟨rfl, rfl⟩

/-- C1: partial-failure atomicity.  Whenever the scheduler reports at least
    one failed asset, the orchestrator writes back no content file and every
    scanned document is left exactly as it was read. -/
theorem C1_partial_failure_atomicity (w : World) (o : RunConfig)
    (res : SchedulerResult)
    (h : (netlifyHybridImagesSetup w o).downloadResult = some res)
    (hf : 0 < res.failed) :
    (netlifyHybridImagesSetup w o).contentWrites = [] ∧
    (netlifyHybridImagesSetup w o).docsAfter = w.docs := by
  revert h
  unfold netlifyHybridImagesSetup
  repeat' split
  all_goals intro h
  all_goals try exact ⟨rfl, rfl⟩
  dsimp only at h ⊢
  rcases hmp : manifestPathOf w.projectRoot o with _ | mp <;>
    rw [hmp] at h <;>
    simp only [Option.isSome_none, Option.isSome_some, Bool.false_eq_true,
      if_false, if_true, ite_true, ite_false] at h ⊢ <;>
    simp only [apply_ite RunResult.downloadResult, finishRun_downloadResult] at h <;>
    split at h <;>
    first
      | (rename_i hc
         rw [Option.some_inj] at h
         subst h
         rw [if_neg hc]
         exact finishRun_failed_frozen _ _ _ _ _ _ _ _ _ hf)
      | simp at h

/-- C1 witness: one document, one asset, the fetch returns `404`; the run
    reports one failure and the document survives byte-for-byte. -/
theorem C1_partial_failure_atomicity_witness :
    let w : World :=
      { projectRoot := "/repo", kirbyUrl := some "https://k", contentDirExists := true,
        docs := [("c/a.json", some (.obj [("hero", .str "https://k/media/a.jpg")]))],
        manifestDisk := fun _ => none,
        fetchFor := fun _ _ => .response 404 "Not Found" none none [],
        fileExists := fun _ => false, now := "T1" }
    (netlifyHybridImagesSetup w defaultOptions).contentWrites = [] ∧
    (netlifyHybridImagesSetup w defaultOptions).docsAfter = w.docs := by
  exact C1_partial_failure_atomicity _ defaultOptions ⟨0, 0, 1, [], ["media/a.jpg"]⟩
    (by decide) (by decide)

theorem lookupAsset_isSome_iff (m : List (String × Asset)) (k : String) :
    (lookupAsset m k).isSome = true ↔ k ∈ m.map Prod.fst := by
  induction m with
  | nil => simp [lookupAsset]
  | cons e rest ih =>
    by_cases h : e.1 = k
    · simp [lookupAsset, h]
    · simp only [lookupAsset, if_neg h, List.map_cons, List.mem_cons, ih]
      constructor
      · exact Or.inr
      · rintro (hk | hk)
        · exact absurd hk.symm h
        · exact hk

theorem registerString_keys_mono (ctx : MediaCtx) (man : Manifest) (u : Bool)
    (m : List (String × Asset)) (s : String) {k : String}
    (h : k ∈ m.map Prod.fst) :
    k ∈ (registerString ctx man u m s).map Prod.fst := by
  unfold registerString
  cases resolveMediaPath s ctx with
  | none => exact h
  | some r =>
    dsimp only
    split
    · exact h
    · simp only [List.map_append, List.mem_append]
      exact Or.inl h

theorem regFold_keys_mono (ctx : MediaCtx) (man : Manifest) (u : Bool)
    (ss : List String) {k : String} :
    ∀ m : List (String × Asset), k ∈ m.map Prod.fst →
      k ∈ (ss.foldl (registerString ctx man u) m).map Prod.fst := by
  induction ss with
  | nil => intro m h; exact h
  | cons s rest ih =>
    intro m h
    exact ih _ (registerString_keys_mono ctx man u m s h)

theorem scanFold_keys_mono (ctx : MediaCtx) (man : Manifest) (u : Bool)
    (ds : List (String × Option JsonVal)) {k : String} :
    ∀ m : List (String × Asset), k ∈ m.map Prod.fst →
      k ∈ (ds.foldl
        (fun m d => (docStrings d).foldl (registerString ctx man u) m) m).map
          Prod.fst := by
  induction ds with
  | nil => intro m h; exact h
  | cons d rest ih =>
    intro m h
    exact ih _ (regFold_keys_mono ctx man u (docStrings d) m h)

theorem registerString_mem (ctx : MediaCtx) (man : Manifest) (u : Bool)
    (m : List (String × Asset)) {s : String} {r : ResolvedMedia}
    (hr : resolveMediaPath s ctx = some r) :
    r.cacheKey ∈ (registerString ctx man u m s).map Prod.fst := by
  unfold registerString
  rw [hr]
  dsimp only
  split
  · rename_i hl
    exact (lookupAsset_isSome_iff m r.cacheKey).mp hl
  · simp

theorem registerString_keys_nodup (ctx : MediaCtx) (man : Manifest) (u : Bool)
    (m : List (String × Asset)) (s : String)
    (h : (m.map Prod.fst).Nodup) :
    ((registerString ctx man u m s).map Prod.fst).Nodup := by
  unfold registerString
  cases resolveMediaPath s ctx with
  | none => exact h
  | some r =>
    dsimp only
    split
    · exact h
    · rename_i hl
      have hnot : r.cacheKey ∉ m.map Prod.fst := by
        rw [← lookupAsset_isSome_iff]
        simpa using hl
      simp [List.nodup_append, h, hnot]

theorem regFold_keys_nodup (ctx : MediaCtx) (man : Manifest) (u : Bool)
    (ss : List String) :
    ∀ m : List (String × Asset), (m.map Prod.fst).Nodup →
      ((ss.foldl (registerString ctx man u) m).map Prod.fst).Nodup := by
  induction ss with
  | nil => intro m h; exact h
  | cons s rest ih =>
    intro m h
    exact ih _ (registerString_keys_nodup ctx man u m s h)

theorem scanAssetMap_keys_nodup (ctx : MediaCtx) (man : Manifest) (u : Bool)
    (docs : List (String × Option JsonVal)) :
    ((scanAssetMap ctx man u docs).map Prod.fst).Nodup := by
  unfold scanAssetMap
  suffices h : ∀ m : List (String × Asset), (m.map Prod.fst).Nodup →
      ((docs.foldl
        (fun m d => (docStrings d).foldl (registerString ctx man u) m) m).map
          Prod.fst).Nodup from h [] (by simp)
  induction docs with
  | nil => intro m h; exact h
  | cons d rest ih =>
    intro m h
    exact ih _ (regFold_keys_nodup ctx man u (docStrings d) m h)

theorem scanAssetMap_mem (ctx : MediaCtx) (man : Manifest) (u : Bool)
    (docs : List (String × Option JsonVal)) {d : String × Option JsonVal}
    {s : String} {r : ResolvedMedia}
    (hd : d ∈ docs) (hs : s ∈ docStrings d) (hr : resolveMediaPath s ctx = some r) :
    r.cacheKey ∈ (scanAssetMap ctx man u docs).map Prod.fst := by
  obtain ⟨l1, l2, rfl⟩ := List.append_of_mem hd
  obtain ⟨s1, s2, hss⟩ := List.append_of_mem hs
  unfold scanAssetMap
  rw [List.foldl_append, List.foldl_cons]
  apply scanFold_keys_mono
  rw [hss, List.foldl_append, List.foldl_cons]
  apply regFold_keys_mono
  exact registerString_mem ctx man u _ hr

/-- C7: cache-key determinism and deduplication.  `resolveMediaPath` is a
    pure function of the URL string (byte-identical URLs give identical
    results, hence identical cache keys), the scanner's asset map has
    pairwise-distinct cache keys, and every URL occurring anywhere in the
    scanned documents that resolves contributes exactly one entry to the
    download work list. -/
theorem C7_cacheKey_dedup (ctx : MediaCtx) (man : Manifest) (u : Bool)
    (docs : List (String × Option JsonVal)) :
    (∀ u1 u2 : String, u1 = u2 →
      (resolveMediaPath u1 ctx).map ResolvedMedia.cacheKey =
        (resolveMediaPath u2 ctx).map ResolvedMedia.cacheKey) ∧
    ((scanAssetMap ctx man u docs).map Prod.fst).Nodup ∧
    (∀ d ∈ docs, ∀ s ∈ docStrings d, ∀ r, resolveMediaPath s ctx = some r →
      ((scanAssetMap ctx man u docs).map Prod.fst).count r.cacheKey = 1) := by
  refine ⟨fun u1 u2 h => by rw [h], scanAssetMap_keys_nodup ctx man u docs, ?_⟩
  intro d hd s hs r hr
  exact List.count_eq_one_of_mem (scanAssetMap_keys_nodup ctx man u docs)
    (scanAssetMap_mem ctx man u docs hd hs hr)

/-- C7 witness: two documents referencing the identical URL; the work list
    carries the key exactly once. -/
theorem C7_cacheKey_dedup_witness :
    let ctx : MediaCtx := ⟨"https://k/media/", "media", "/repo/public/media"⟩
    let man : Manifest := fun _ => none
    let docs : List (String × Option JsonVal) :=
      [("a.json", some (.str "https://k/media/x.jpg")),
       ("b.json", some (.obj [("y", .str "https://k/media/x.jpg")]))]
    ((scanAssetMap ctx man false docs).map Prod.fst).Nodup ∧
    ((scanAssetMap ctx man false docs).map Prod.fst).count "media/x.jpg" = 1 := by
  refine ⟨(C7_cacheKey_dedup _ (fun _ => none) false _).2.1, ?_⟩
  have h := (C7_cacheKey_dedup ⟨"https://k/media/", "media", "/repo/public/media"⟩
    (fun _ => none) false
    [("a.json", some (.str "https://k/media/x.jpg")),
     ("b.json", some (.obj [("y", .str "https://k/media/x.jpg")]))]).2.2
    ("a.json", some (.str "https://k/media/x.jpg")) (by simp)
    "https://k/media/x.jpg" (by simp [docStrings, jsonStrings])
  exact h { cacheKey := "media/x.jpg", remoteUrl := "https://k/media/x.jpg",
            downloadUrl := "https://k/media/x.jpg",
            filePath := "/repo/public/media/x.jpg", localPath := "/media/x.jpg",
            localPathWithQuery := "/media/x.jpg" } (by decide)

theorem mem_addOnce_self (s : List String) (k : String) : k ∈ addOnce s k := by
  unfold addOnce
  split
  · assumption
  · simp

theorem addOnce_mono {s : List String} {k' : String} (k : String)
    (h : k' ∈ s) : k' ∈ addOnce s k := by
  unfold addOnce
  split
  · exact h
  · simp [h]

theorem fold_removals_mono (dl : Asset → DownloadResult) (assets : List Asset)
    {k : String} :
    ∀ acc : SchedulerResult, k ∈ acc.manifestRemovals →
      k ∈ (assets.foldl (schedStep dl) acc).manifestRemovals := by
  induction assets with
  | nil => intro acc h; exact h
  | cons b rest ih =>
    intro acc h
    apply ih
    unfold schedStep
    dsimp only
    split
    · exact addOnce_mono _ h
    · exact h

theorem fold_removals_mem (dl : Asset → DownloadResult) {assets : List Asset}
    {a : Asset} (ha : a ∈ assets) (hf : (dl a).status = .failed) :
    ∀ acc : SchedulerResult,
      a.cacheKey ∈ (assets.foldl (schedStep dl) acc).manifestRemovals := by
  induction assets with
  | nil => cases ha
  | cons b rest ih =>
    intro acc
    rcases List.mem_cons.mp ha with rfl | hmem
    · rw [List.foldl_cons]
      apply fold_removals_mono
      unfold schedStep
      dsimp only
      rw [if_pos hf]
      exact mem_addOnce_self _ _
    · exact ih hmem _

theorem lookupEntry_setAssoc_ne (m : List (String × ManifestEntry)) (k k' : String)
    (v : ManifestEntry) (h : k ≠ k') :
    lookupEntry (setAssoc m k v) k' = lookupEntry m k' := by
  induction m with
  | nil => simp [setAssoc, lookupEntry, h]
  | cons e rest ih =>
    by_cases he : e.1 = k
    · simp only [setAssoc, if_pos he, lookupEntry]
      rw [if_neg h, if_neg (fun hc => h (he.symm.trans hc))]
    · simp only [setAssoc, if_neg he, lookupEntry, ih]

theorem fold_updates_none (dl : Asset → DownloadResult) (assets : List Asset)
    {k : String}
    (hall : ∀ b ∈ assets, b.cacheKey = k → (dl b).metadata = none) :
    ∀ acc : SchedulerResult, lookupEntry acc.manifestUpdates k = none →
      lookupEntry (assets.foldl (schedStep dl) acc).manifestUpdates k = none := by
  induction assets with
  | nil => intro acc h; exact h
  | cons b rest ih =>
    intro acc h
    rw [List.foldl_cons]
    refine ih (fun x hx => hall x (List.mem_cons_of_mem b hx)) _ ?_
    unfold schedStep
    dsimp only
    cases hm : (dl b).metadata with
    | none => exact h
    | some md =>
      by_cases hk : b.cacheKey = k
      · exact absurd hm (by simp [hall b (List.mem_cons_self b rest) hk])
      · rw [lookupEntry_setAssoc_ne _ _ _ _ hk]
        exact h

theorem deleteKeys_none (ks : List String) {k : String} :
    ∀ m : Manifest × Bool, m.1 k = none → ((ks.foldl
      (fun (acc : Manifest × Bool) (k' : String) =>
        if (acc.1 k').isSome = true
        then (fun q => if q = k' then none else acc.1 q, true) else acc)
      m).1) k = none := by
  induction ks with
  | nil => intro m h; exact h
  | cons x rest ih =>
    intro m h
    rw [List.foldl_cons]
    apply ih
    dsimp only
    split
    · dsimp only
      split
      · rfl
      · exact h
    · exact h

theorem deleteKeys_fold_mem {ks : List String} {k : String} (h : k ∈ ks) :
    ∀ p : Manifest × Bool, ((ks.foldl
      (fun (acc : Manifest × Bool) (k' : String) =>
        if (acc.1 k').isSome = true
        then (fun q => if q = k' then none else acc.1 q, true) else acc)
      p).1) k = none := by
  induction ks with
  | nil => cases h
  | cons x rest ih =>
    intro p
    rcases List.mem_cons.mp h with rfl | hmem
    · rw [List.foldl_cons]
      apply deleteKeys_none
      dsimp only
      split
      · simp
      · rename_i hs
        simpa using hs
    · rw [List.foldl_cons]
      exact ih hmem _

theorem deleteKeys_mem (m : Manifest) {ks : List String} {k : String}
    (h : k ∈ ks) : (deleteKeys m ks).1 k = none :=
  deleteKeys_fold_mem h (m, false)

/-- C8: cache-entry invariant on failure.  With the real fetcher plugged into
    the scheduler and pairwise-distinct cache keys (as the de-duplicating
    scanner guarantees), every asset whose outcome is `failed` has its key in
    the manifest-removal set, no metadata upserted for it, and no entry under
    its key once the orchestrator applies the deltas to any manifest; an
    entry can survive under a processed key only when that asset's outcome
    was `downloaded` or `skipped`. -/
theorem C8_failed_removed_from_manifest
    (fetch : String → Nat → FetchOutcome) (fe : String → Bool) (now : String)
    (mR rD : Nat) (sU : Bool) (assets : List Asset) (c : Int) (m : Manifest)
    (hnd : (assets.map Asset.cacheKey).Nodup) (a : Asset) (ha : a ∈ assets) :
    (((fun b => (downloadAsset b ⟨fetch b.downloadUrl, fe b.filePath, now⟩
          mR rD sU).toDlTrace.result) a).status = .failed →
      a.cacheKey ∈ (downloadWithConcurrency
          (fun b => (downloadAsset b ⟨fetch b.downloadUrl, fe b.filePath, now⟩
            mR rD sU).toDlTrace.result) assets c).manifestRemovals ∧
      lookupEntry (downloadWithConcurrency
          (fun b => (downloadAsset b ⟨fetch b.downloadUrl, fe b.filePath, now⟩
            mR rD sU).toDlTrace.result) assets c).manifestUpdates a.cacheKey =
        none ∧
      (deleteKeys
          (applyUpdates m (downloadWithConcurrency
            (fun b => (downloadAsset b ⟨fetch b.downloadUrl, fe b.filePath, now⟩
              mR rD sU).toDlTrace.result) assets c).manifestUpdates)
          (downloadWithConcurrency
            (fun b => (downloadAsset b ⟨fetch b.downloadUrl, fe b.filePath, now⟩
              mR rD sU).toDlTrace.result) assets c).manifestRemovals).1
        a.cacheKey = none) ∧
    ((deleteKeys
          (applyUpdates m (downloadWithConcurrency
            (fun b => (downloadAsset b ⟨fetch b.downloadUrl, fe b.filePath, now⟩
              mR rD sU).toDlTrace.result) assets c).manifestUpdates)
          (downloadWithConcurrency
            (fun b => (downloadAsset b ⟨fetch b.downloadUrl, fe b.filePath, now⟩
              mR rD sU).toDlTrace.result) assets c).manifestRemovals).1
        a.cacheKey ≠ none →
      ((fun b => (downloadAsset b ⟨fetch b.downloadUrl, fe b.filePath, now⟩
          mR rD sU).toDlTrace.result) a).status = .downloaded ∨
      ((fun b => (downloadAsset b ⟨fetch b.downloadUrl, fe b.filePath, now⟩
          mR rD sU).toDlTrace.result) a).status = .skipped) := by
  set dl : Asset → DownloadResult := fun b =>
    (downloadAsset b ⟨fetch b.downloadUrl, fe b.filePath, now⟩
      mR rD sU).toDlTrace.result with hdl
  have hmain : (dl a).status = .failed →
      a.cacheKey ∈ (downloadWithConcurrency dl assets c).manifestRemovals ∧
      lookupEntry (downloadWithConcurrency dl assets c).manifestUpdates
        a.cacheKey = none ∧
      (deleteKeys (applyUpdates m
          (downloadWithConcurrency dl assets c).manifestUpdates)
        (downloadWithConcurrency dl assets c).manifestRemovals).1
        a.cacheKey = none := by
    intro hf
    have hne : assets ≠ [] := fun hnil => by simp [hnil] at ha
    have hw : ¬ numWorkers c assets.length ≤ 0 := by
      have : 1 ≤ (assets.length : Int) := by
        have := List.length_pos.mpr hne
        omega
      unfold numWorkers
      omega
    have hrm : a.cacheKey ∈ (downloadWithConcurrency dl assets c).manifestRemovals := by
      unfold downloadWithConcurrency
      rw [if_neg hne, if_neg hw]
      exact fold_removals_mem dl ha hf _
    have hup : lookupEntry (downloadWithConcurrency dl assets c).manifestUpdates
        a.cacheKey = none := by
      unfold downloadWithConcurrency
      rw [if_neg hne, if_neg hw]
      refine fold_updates_none dl assets ?_ _ rfl
      intro b hb hk
      have hba : b = a :=
        List.inj_on_of_nodup_map hnd hb ha hk
      subst hba
      rw [hdl]
      exact dlLoop_failed_no_metadata _ _ _ _ _ _ _ hf
    exact ⟨hrm, hup, deleteKeys_mem _ hrm⟩
  refine ⟨hmain, fun hsurv => ?_⟩
  cases hst : (dl a).status with
  | downloaded => exact Or.inl rfl
  | skipped => exact Or.inr rfl
  | failed => exact absurd (hmain hst).2.2 hsurv

/-- C8 witness: one failing asset; its key is removed from a manifest that
    previously contained it. -/
theorem C8_failed_removed_from_manifest_witness :
    let fetch : String → Nat → FetchOutcome :=
      fun _ _ => .response 404 "Not Found" none none []
    let fe : String → Bool := fun _ => false
    let a : Asset := { cacheKey := "media/a.jpg", remoteUrl := "r",
                       downloadUrl := "d", filePath := "f", localPath := "l",
                       localPathWithQuery := "l" }
    let m : Manifest := fun k =>
      if k = "media/a.jpg" then some { etag := some "abc" } else none
    ((fun b => (downloadAsset b ⟨fetch b.downloadUrl, fe b.filePath, "T1"⟩
        3 1000 true).toDlTrace.result) a).status = .failed ∧
    ("media/a.jpg" ∈ (downloadWithConcurrency
        (fun b => (downloadAsset b ⟨fetch b.downloadUrl, fe b.filePath, "T1"⟩
          3 1000 true).toDlTrace.result) [a] 2).manifestRemovals ∧
      lookupEntry (downloadWithConcurrency
        (fun b => (downloadAsset b ⟨fetch b.downloadUrl, fe b.filePath, "T1"⟩
          3 1000 true).toDlTrace.result) [a] 2).manifestUpdates "media/a.jpg" =
        none ∧
      (deleteKeys (applyUpdates m (downloadWithConcurrency
          (fun b => (downloadAsset b ⟨fetch b.downloadUrl, fe b.filePath, "T1"⟩
            3 1000 true).toDlTrace.result) [a] 2).manifestUpdates)
        (downloadWithConcurrency
          (fun b => (downloadAsset b ⟨fetch b.downloadUrl, fe b.filePath, "T1"⟩
            3 1000 true).toDlTrace.result) [a] 2).manifestRemovals).1
        "media/a.jpg" = none) := by
  refine ⟨by decide, ?_⟩
  exact (C8_failed_removed_from_manifest
    (fun _ _ => .response 404 "Not Found" none none []) (fun _ => false) "T1"
    3 1000 true
    [{ cacheKey := "media/a.jpg", remoteUrl := "r", downloadUrl := "d",
       filePath := "f", localPath := "l", localPathWithQuery := "l" }] 2
    (fun k => if k = "media/a.jpg" then some { etag := some "abc" } else none)
    (by decide)
    { cacheKey := "media/a.jpg", remoteUrl := "r", downloadUrl := "d",
      filePath := "f", localPath := "l", localPathWithQuery := "l" }
    (by simp)).1 (by decide)

theorem splitOnChar_no_sep (sep : Char) (l : List Char) :
    ∀ s ∈ splitOnChar sep l, sep ∉ s := by
  induction l with
  | nil => simp [splitOnChar]
  | cons c cs ih =>
    simp only [splitOnChar]
    cases hs : splitOnChar sep cs with
    | nil => simp
    | cons s rest =>
      dsimp only
      by_cases hc : c = sep
      · rw [if_pos hc]
        intro x hx
        rcases List.mem_cons.mp hx with rfl | hx
        · simp
        · exact ih x (hs ▸ hx)
      · rw [if_neg hc]
        intro x hx
        rcases List.mem_cons.mp hx with rfl | hx
        · have hsmem : s ∈ splitOnChar sep cs := by rw [hs]; simp
          have := ih s hsmem
          simp only [List.mem_cons]
          rintro (rfl | hmem)
          · exact hc rfl
          · exact this hmem
        · exact ih x (hs ▸ List.mem_cons_of_mem s hx)

theorem joinSegs_ne_nil {L : List (List Char)} (hne : L ≠ [])
    (h : ∀ s ∈ L, s ≠ []) : joinSegs L ≠ [] := by
  cases L with
  | nil => exact absurd rfl hne
  | cons s rest =>
    cases rest with
    | nil => exact h s (by simp)
    | cons t more => simp [joinSegs]

theorem splitOnChar_append_sep (sep : Char) (x : List Char) :
    splitOnChar sep (x ++ [sep]) = splitOnChar sep x ++ [[]] := by
  induction x with
  | nil => simp [splitOnChar]
  | cons c cs ih =>
    simp only [List.cons_append, splitOnChar, List.append_eq, ih]
    cases hs : splitOnChar sep cs with
    | nil => exact absurd hs (splitOnChar_ne_nil sep cs)
    | cons s rest =>
      by_cases hc : c = sep <;> simp [hc]

theorem splitOnChar_joinSegs {L : List (List Char)} (hne : L ≠ [])
    (h : ∀ s ∈ L, '/' ∉ s) : splitOnChar '/' (joinSegs L) = L := by
  induction L with
  | nil => exact absurd rfl hne
  | cons s rest ih =>
    cases rest with
    | nil => exact splitOnChar_not_mem (h s (by simp))
    | cons t more =>
      rw [joinSegs_cons s (by simp)]
      rw [splitOnChar_append (joinSegs (t :: more)) (h s (by simp))]
      rw [ih (by simp) (fun x hx => h x (List.mem_cons_of_mem s hx))]

theorem joinSegs_append {L1 L2 : List (List Char)} (h1 : L1 ≠ []) (h2 : L2 ≠ []) :
    joinSegs (L1 ++ L2) = joinSegs L1 ++ '/' :: joinSegs L2 := by
  induction L1 with
  | nil => exact absurd rfl h1
  | cons s rest ih =>
    cases rest with
    | nil =>
      cases L2 with
      | nil => exact absurd rfl h2
      | cons t more => rfl
    | cons t more =>
      rw [List.cons_append, joinSegs_cons s (by simp),
        joinSegs_cons s (by simp), ih (by simp)]
      simp

theorem joinSegs_concat_decomp {L : List (List Char)}
    (h : ∀ s ∈ L, s ≠ [] ∧ '/' ∉ s) (hne : L ≠ []) :
    ∃ ys a, joinSegs L = ys ++ [a] ∧ a ≠ '/' := by
  induction L with
  | nil => exact absurd rfl hne
  | cons s rest ih =>
    cases rest with
    | nil =>
      obtain ⟨hs1, hs2⟩ := h s (by simp)
      rcases List.eq_nil_or_concat s with rfl | ⟨ys, a, rfl⟩
      · exact absurd rfl hs1
      · refine ⟨ys, a, by simp [joinSegs], fun hc => hs2 ?_⟩
        subst hc
        simp
    | cons t more =>
      obtain ⟨ys, a, hja, hane⟩ :=
        ih (fun x hx => h x (List.mem_cons_of_mem s hx)) (by simp)
      refine ⟨s ++ '/' :: ys, a, ?_, hane⟩
      rw [joinSegs_cons s (by simp), hja]
      simp

theorem joinSegs_getLast_ne_slash {L : List (List Char)} (hne : L ≠ [])
    (h : ∀ s ∈ L, s ≠ [] ∧ '/' ∉ s) :
    (joinSegs L).getLast? ≠ some '/' := by
  obtain ⟨ys, a, hja, hane⟩ := joinSegs_concat_decomp h hne
  rw [hja, List.getLast?_concat]
  exact fun hc => hane (by simpa using hc)

theorem normStep_stackOK (a : Bool) {st : List (List Char)} {seg : List Char}
    (hst : ∀ s ∈ st, s ≠ [] ∧ '/' ∉ s ∧ s ≠ ['.'])
    (hseg : '/' ∉ seg) :
    ∀ s ∈ normStep a st seg, s ≠ [] ∧ '/' ∉ s ∧ s ≠ ['.'] := by
  unfold normStep
  split
  · exact hst
  · split
    · cases st with
      | nil =>
        dsimp only
        split
        · intro s hs
          rcases List.mem_singleton.mp hs with rfl
          exact ⟨by decide, by decide, by decide⟩
        · intro s hs; cases hs
      | cons top rest =>
        dsimp only
        split
        · split
          · intro s hs
            rcases List.mem_cons.mp hs with rfl | hs
            · exact ⟨by decide, by decide, by decide⟩
            · exact hst s hs
          · exact hst
        · exact fun s hs => hst s (List.mem_cons_of_mem top hs)
    · rename_i hno hdd
      intro s hs
      rcases List.mem_cons.mp hs with rfl | hs
      · push_neg at hno
        exact ⟨hno.1, hseg, hno.2⟩
      · exact hst s hs

theorem normStep_ddSuffix (a : Bool) {st : List (List Char)} (seg : List Char)
    (h : ddSuffix st) : ddSuffix (normStep a st seg) := by
  unfold normStep
  split
  · exact h
  · split
    · cases st with
      | nil =>
        dsimp only
        split
        · rw [ddSuffix, if_pos rfl]
          intro x hx
          cases hx
        · exact trivial
      | cons top rest =>
        dsimp only
        by_cases htop : top = ['.', '.']
        · rw [if_pos htop]
          rw [ddSuffix, if_pos htop] at h
          split
          · rw [ddSuffix, if_pos rfl]
            intro x hx
            rcases List.mem_cons.mp hx with rfl | hx
            · exact htop
            · exact h x hx
          · rw [ddSuffix, if_pos htop]
            exact h
        · rw [if_neg htop]
          rw [ddSuffix, if_neg htop] at h
          exact h
    · rename_i hno hdd
      rw [ddSuffix, if_neg hdd]
      exact h

theorem normStep_noDD {st : List (List Char)} (seg : List Char)
    (h : ∀ s ∈ st, s ≠ ['.', '.']) :
    ∀ s ∈ normStep false st seg, s ≠ ['.', '.'] := by
  unfold normStep
  split
  · exact h
  · split
    · cases st with
      | nil =>
        dsimp only
        intro s hs
        simp at hs
      | cons top rest =>
        dsimp only
        split
        · intro s hs
          simp only [Bool.false_eq_true, if_false] at hs
          exact h s hs
        · exact fun s hs => h s (List.mem_cons_of_mem top hs)
    · rename_i hno hdd
      intro s hs
      rcases List.mem_cons.mp hs with rfl | hs
      · exact hdd
      · exact h s hs

theorem foldl_normStep_stackOK (a : Bool) (segs : List (List Char))
    (hsegs : ∀ seg ∈ segs, '/' ∉ seg) :
    ∀ st, (∀ s ∈ st, s ≠ [] ∧ '/' ∉ s ∧ s ≠ ['.']) →
      ∀ s ∈ segs.foldl (normStep a) st, s ≠ [] ∧ '/' ∉ s ∧ s ≠ ['.'] := by
  induction segs with
  | nil => intro st h; exact h
  | cons x rest ih =>
    intro st h
    exact ih (fun seg hs => hsegs seg (List.mem_cons_of_mem x hs)) _
      (normStep_stackOK a h (hsegs x (List.mem_cons_self x rest)))

theorem foldl_normStep_ddSuffix (a : Bool) (segs : List (List Char)) :
    ∀ st, ddSuffix st → ddSuffix (segs.foldl (normStep a) st) := by
  induction segs with
  | nil => intro st h; exact h
  | cons x rest ih =>
    intro st h
    exact ih _ (normStep_ddSuffix a x h)

theorem foldl_normStep_noDD (segs : List (List Char)) :
    ∀ st, (∀ s ∈ st, s ≠ ['.', '.']) →
      ∀ s ∈ segs.foldl (normStep false) st, s ≠ ['.', '.'] := by
  induction segs with
  | nil => intro st h; exact h
  | cons x rest ih =>
    intro st h
    exact ih _ (normStep_noDD x h)

theorem foldl_normStep_clean (a : Bool) {segs : List (List Char)}
    (h : ∀ s ∈ segs, s ≠ [] ∧ s ≠ ['.'] ∧ s ≠ ['.', '.']) :
    ∀ st, segs.foldl (normStep a) st = segs.reverse ++ st := by
  induction segs with
  | nil => intro st; rfl
  | cons x rest ih =>
    intro st
    obtain ⟨h1, h2, h3⟩ := h x (List.mem_cons_self x rest)
    rw [List.foldl_cons]
    have hx : normStep a st x = x :: st := by
      unfold normStep
      rw [if_neg (by simp [h1, h2]), if_neg h3]
    rw [hx, ih (fun s hs => h s (List.mem_cons_of_mem x hs))]
    simp

theorem ddSuffix_concat {l : List (List Char)} {x : List Char}
    (h : ddSuffix (l ++ [x])) (hm : ['.', '.'] ∈ l ++ [x]) : x = ['.', '.'] := by
  induction l with
  | nil =>
    rcases List.mem_singleton.mp hm with rfl
    rfl
  | cons y l' ih =>
    by_cases hy : y = ['.', '.']
    · have hall : ∀ z ∈ l' ++ [x], z = ['.', '.'] := by
        have := h
        rw [List.cons_append, ddSuffix, if_pos hy] at this
        exact this
      exact hall x (by simp)
    · have hdd : ddSuffix (l' ++ [x]) := by
        have := h
        rw [List.cons_append, ddSuffix, if_neg hy] at this
        exact this
      rcases List.mem_cons.mp hm with heq | hm'
      · exact absurd heq.symm hy
      · exact ih hdd hm'

theorem splitOnChar_cons_sep (sep : Char) (x : List Char) :
    splitOnChar sep (sep :: x) = [] :: splitOnChar sep x := by
  show (match splitOnChar sep x with
    | [] => [[]]
    | s :: rest => if sep = sep then [] :: s :: rest else (sep :: s) :: rest) = _
  cases hs : splitOnChar sep x with
  | nil => exact absurd hs (splitOnChar_ne_nil sep x)
  | cons s rest => simp

theorem normSegments_OK (l : List Char) :
    ∀ s ∈ normSegments l, s ≠ [] ∧ '/' ∉ s ∧ s ≠ ['.'] := by
  intro s hs
  rw [normSegments, List.mem_reverse] at hs
  exact foldl_normStep_stackOK _ _ (splitOnChar_no_sep '/' l) []
    (by intro x hx; cases hx) s hs

theorem normSegments_ddSuffix (l : List Char) :
    ddSuffix (normSegments l).reverse := by
  rw [normSegments, List.reverse_reverse]
  exact foldl_normStep_ddSuffix _ _ [] trivial

theorem normSegments_abs_noDD {l : List Char} (h : l.head? = some '/') :
    ∀ s ∈ normSegments l, s ≠ ['.', '.'] := by
  intro s hs
  rw [normSegments, List.mem_reverse] at hs
  have : (!(decide (l.head? = some '/'))) = false := by simp [h]
  rw [this] at hs
  exact foldl_normStep_noDD _ [] (by intro x hx; cases hx) s hs

theorem normSegments_noDD {l : List Char} {r0 : List Char} {rr : List (List Char)}
    (hL : normSegments l = r0 :: rr) (hr0 : r0 ≠ ['.', '.']) :
    ∀ s ∈ normSegments l, s ≠ ['.', '.'] := by
  intro s hs
  intro hsdd
  subst hsdd
  have hst : (normSegments l).reverse = rr.reverse ++ [r0] := by
    rw [hL]; simp
  have hdd := normSegments_ddSuffix l
  rw [hst] at hdd
  have hmem : (['.', '.'] : List Char) ∈ rr.reverse ++ [r0] := by
    rw [← hst, List.mem_reverse]
    exact hs
  exact hr0 (ddSuffix_concat hdd hmem)

/-- Shape of the normalized path's non-empty `'/'`-separated segments when the
    normalized path does not escape the root: either the single segment `'.'`
    (the path collapsed to the current directory) or clean segments only. -/
theorem pathSegments_shape (l : List Char)
    (hesc : ¬ escapesRoot (normalizeList l)) :
    pathSegments l = [['.']] ∨ ∀ s ∈ pathSegments l, cleanSeg s := by
  by_cases hd : l = []
  · subst hd
    left
    decide
  · have hOK := normSegments_OK l
    cases hL : normSegments l with
    | nil =>
      have hnl : normalizeList l =
          (if decide (l.head? = some '/') then ['/']
           else if decide (l.getLast? = some '/') then ['.', '/'] else ['.']) := by
        unfold normalizeList
        rw [if_neg hd]
        try dsimp only
        rw [hL]
        rfl
      unfold pathSegments
      rw [hnl]
      by_cases hA : decide (l.head? = some '/') = true
      · rw [if_pos hA]
        right
        intro s hs
        simp [splitOnChar] at hs
      · rw [if_neg hA]
        by_cases hT : decide (l.getLast? = some '/') = true
        · rw [if_pos hT]
          left
          decide
        · rw [if_neg hT]
          left
          decide
    | cons r0 rr =>
      have hcore_ne : joinSegs (normSegments l) ≠ [] := by
        rw [hL]
        exact joinSegs_ne_nil (by simp)
          (fun s hs => (hOK s (hL ▸ hs)).1)
      have hnl : normalizeList l =
          (if decide (l.head? = some '/')
           then '/' :: (if decide (l.getLast? = some '/')
             then joinSegs (normSegments l) ++ ['/'] else joinSegs (normSegments l))
           else (if decide (l.getLast? = some '/')
             then joinSegs (normSegments l) ++ ['/'] else joinSegs (normSegments l))) := by
        unfold normalizeList
        rw [if_neg hd]
        try dsimp only
        rw [if_neg hcore_ne]
      have hr0 : r0 ≠ ['.', '.'] := by
        intro hr0dd
        subst hr0dd
        by_cases hA : l.head? = some '/'
        · exact normSegments_abs_noDD hA _ (hL ▸ List.mem_cons_self _ rr) rfl
        · apply hesc
          have hAfalse : decide (l.head? = some '/') = false := by simp [hA]
          rw [hnl, hAfalse]
          rw [if_neg (by simp : ¬ ((false : Bool) = true))]
          cases rr with
          | nil =>
            rw [hL]
            by_cases hT : decide (l.getLast? = some '/') = true
            · rw [if_pos hT]
              left
              decide
            · rw [if_neg hT]
              right
              decide
          | cons r1 rr' =>
            left
            rw [hL, joinSegs_cons _ (by simp)]
            by_cases hT : decide (l.getLast? = some '/') = true
            · rw [if_pos hT]
              simp [List.isPrefixOf]
            · rw [if_neg hT]
              simp [List.isPrefixOf]
      have hnoDD := normSegments_noDD hL hr0
      have hclean : ∀ s ∈ normSegments l, cleanSeg s := by
        intro s hs
        obtain ⟨h1, h2, h3⟩ := hOK s hs
        exact ⟨h1, h2, h3, hnoDD s hs⟩
      have hsplit : splitOnChar '/' (joinSegs (normSegments l)) = normSegments l :=
        splitOnChar_joinSegs (by rw [hL]; simp)
          (fun s hs => (hOK s hs).2.1)
      right
      unfold pathSegments
      rw [hnl]
      by_cases hA : decide (l.head? = some '/') = true
      · rw [if_pos hA]
        by_cases hT : decide (l.getLast? = some '/') = true
        · rw [if_pos hT]
          intro s hs
          rw [splitOnChar_cons_sep, splitOnChar_append_sep, hsplit,
            List.mem_filter] at hs
          obtain ⟨hmem, hne⟩ := hs
          have hne' : s ≠ [] := by simpa using hne
          refine hclean s ?_
          simp only [List.mem_cons, List.mem_append, List.not_mem_nil,
            or_false] at hmem
          rcases hmem with rfl | hmem | rfl
          · exact absurd rfl hne'
          · exact hmem
          · exact absurd rfl hne'
        · rw [if_neg hT]
          intro s hs
          rw [splitOnChar_cons_sep, hsplit, List.mem_filter] at hs
          obtain ⟨hmem, hne⟩ := hs
          have hne' : s ≠ [] := by simpa using hne
          refine hclean s ?_
          rcases List.mem_cons.mp hmem with rfl | hmem
          · exact absurd rfl hne'
          · exact hmem
      · rw [if_neg hA]
        by_cases hT : decide (l.getLast? = some '/') = true
        · rw [if_pos hT]
          intro s hs
          rw [splitOnChar_append_sep, hsplit, List.mem_filter] at hs
          obtain ⟨hmem, hne⟩ := hs
          have hne' : s ≠ [] := by simpa using hne
          refine hclean s ?_
          rcases List.mem_append.mp hmem with hmem | hmem
          · exact hmem
          · exact absurd (List.mem_singleton.mp hmem) hne'
        · rw [if_neg hT]
          intro s hs
          rw [hsplit, List.mem_filter] at hs
          exact hclean s hs.1

theorem normalizeList_abs (X : List Char) {L : List (List Char)}
    (hsegs : normSegments ('/' :: X) = L) (hLne : L ≠ [])
    (hOKelems : ∀ s ∈ L, s ≠ [])
    (htr : ('/' :: X).getLast? ≠ some '/') :
    normalizeList ('/' :: X) = '/' :: joinSegs L := by
  unfold normalizeList
  rw [if_neg (by simp)]
  try dsimp only
  rw [hsegs]
  rw [if_neg (joinSegs_ne_nil hLne hOKelems)]
  have hA : decide (('/' :: X).head? = some '/') = true := by simp
  have hT : decide (('/' :: X).getLast? = some '/') = false := by
    simpa using htr
  rw [hA, hT]
  rfl

theorem foldl_skip_empty (a : Bool) (segs : List (List Char)) (st : List (List Char)) :
    ([] :: segs).foldl (normStep a) st = segs.foldl (normStep a) st := by
  rw [List.foldl_cons]
  congr 1

theorem normSegments_abs_join {CL : List (List Char)} (hne : CL ≠ [])
    (hclean : ∀ s ∈ CL, cleanSeg s) :
    normSegments ('/' :: joinSegs CL) = CL := by
  unfold normSegments
  have hA : (!(decide (('/' :: joinSegs CL).head? = some '/'))) = false := by simp
  rw [hA, splitOnChar_cons_sep,
    splitOnChar_joinSegs hne (fun s hs => (hclean s hs).2.1),
    foldl_skip_empty, foldl_normStep_clean false
      (fun s hs => ⟨(hclean s hs).1, (hclean s hs).2.2.1, (hclean s hs).2.2.2⟩)]
  simp

theorem normSegments_abs_join_dot {msegs : List (List Char)} (_hne : msegs ≠ [])
    (hclean : ∀ s ∈ msegs, cleanSeg s) :
    normSegments ('/' :: joinSegs (msegs ++ [['.']])) = msegs := by
  unfold normSegments
  have hA : (!(decide (('/' :: joinSegs (msegs ++ [['.']])).head? = some '/'))) =
      false := by simp
  rw [hA, splitOnChar_cons_sep,
    splitOnChar_joinSegs (by simp)
      (by
        intro s hs
        rcases List.mem_append.mp hs with hs | hs
        · exact (hclean s hs).2.1
        · rcases List.mem_singleton.mp hs with rfl
          decide),
    foldl_skip_empty, List.foldl_append,
    foldl_normStep_clean false
      (fun s hs => ⟨(hclean s hs).1, (hclean s hs).2.2.1, (hclean s hs).2.2.2⟩)]
  show (normStep false (msegs.reverse ++ []) ['.']).reverse = msegs
  rw [normStep.eq_def, if_pos (by simp)]
  simp

theorem posixJoin_dot {M : List Char} (hM : cleanAbsDir M) :
    posixJoin [M, ['.']] = M := by
  obtain ⟨msegs, hm1, hm2, rfl⟩ := hM
  unfold posixJoin
  rw [show ([('/' :: joinSegs msegs : List Char), ['.']].filter (· ≠ [])) =
      [('/' :: joinSegs msegs : List Char), ['.']] by simp]
  rw [if_neg (by simp)]
  have hjoin : joinSegs [('/' :: joinSegs msegs : List Char), ['.']] =
      '/' :: joinSegs (msegs ++ [['.']]) := by
    rw [joinSegs_cons _ (by simp)]
    show ('/' :: joinSegs msegs) ++ '/' :: joinSegs [['.']] = _
    rw [joinSegs_append hm1 (by simp)]
    rfl
  rw [hjoin]
  obtain ⟨ys, a, hya, hane⟩ := joinSegs_concat_decomp
    (L := msegs ++ [['.']])
    (by
      intro s hs
      rcases List.mem_append.mp hs with hs | hs
      · exact ⟨(hm2 s hs).1, (hm2 s hs).2.1⟩
      · rcases List.mem_singleton.mp hs with rfl
        exact ⟨by decide, by decide⟩)
    (by simp)
  rw [normalizeList_abs _ (normSegments_abs_join_dot hm1 hm2) hm1
    (fun s hs => (hm2 s hs).1)
    (by
      rw [hya]
      rw [show ('/' :: (ys ++ [a])) = ('/' :: ys) ++ [a] by simp,
        List.getLast?_concat]
      simpa using hane)]

theorem posixJoin_under {M : List Char} {segs : List (List Char)}
    (hM : cleanAbsDir M) (hs : segs ≠ []) (hclean : ∀ s ∈ segs, cleanSeg s) :
    posixJoin (M :: segs) = M ++ '/' :: joinSegs segs := by
  obtain ⟨msegs, hm1, hm2, rfl⟩ := hM
  unfold posixJoin
  rw [show ((('/' :: joinSegs msegs : List Char) :: segs).filter (· ≠ [])) =
      (('/' :: joinSegs msegs : List Char) :: segs) by
    rw [List.filter_cons_of_pos (by simp)]
    congr 1
    exact List.filter_eq_self.mpr (fun s hsm => by simpa using (hclean s hsm).1)]
  rw [if_neg (by simp)]
  have hjoin : joinSegs (('/' :: joinSegs msegs : List Char) :: segs) =
      '/' :: joinSegs (msegs ++ segs) := by
    rw [joinSegs_cons _ hs]
    show ('/' :: joinSegs msegs) ++ '/' :: joinSegs segs = _
    rw [joinSegs_append hm1 hs]
    rfl
  rw [hjoin]
  have hcleanall : ∀ s ∈ msegs ++ segs, cleanSeg s := by
    intro s hsm
    rcases List.mem_append.mp hsm with hsm | hsm
    · exact hm2 s hsm
    · exact hclean s hsm
  obtain ⟨ys, a, hya, hane⟩ := joinSegs_concat_decomp
    (L := msegs ++ segs)
    (fun s hsm => ⟨(hcleanall s hsm).1, (hcleanall s hsm).2.1⟩)
    (by simp [hm1])
  rw [normalizeList_abs _ (normSegments_abs_join (by simp [hm1]) hcleanall)
    (by simp [hm1]) (fun s hsm => (hcleanall s hsm).1)
    (by
      rw [hya]
      rw [show ('/' :: (ys ++ [a])) = ('/' :: ys) ++ [a] by simp,
        List.getLast?_concat]
      simpa using hane)]
  rw [joinSegs_append hm1 hs]
  rfl

theorem questionParts_no_q {l : List Char} (h : '?' ∉ l) :
    questionParts l = (l, []) := by
  unfold questionParts
  rw [splitOnChar_not_mem h]

/-- C3: traversal safety.  (1) Any URL whose decoded, normalized path still
    escapes the root (begins with `'../'` or equals `'..'`) resolves to
    `none`; (2) in particular `prefix ++ "../../etc/passwd"` resolves to
    `none` for every configuration; (3) every successful resolution yields a
    `filePath` inside the media output directory (the directory itself in the
    degenerate case where the path normalizes to `'.'`). -/
theorem C3_traversal_safety :
    (∀ (url : String) (ctx : MediaCtx) (d : List Char),
      decodeURIComponentList (rawPathOf url ctx) = some d →
      escapesRoot (normalizeList d) →
      resolveMediaPath url ctx = none) ∧
    (∀ ctx : MediaCtx,
      resolveMediaPath ⟨ctx.mediaPrefix.data ++ "../../etc/passwd".data⟩ ctx =
        none) ∧
    (∀ (url : String) (ctx : MediaCtx) (r : ResolvedMedia),
      cleanAbsDir ctx.mediaOutputDir.data →
      resolveMediaPath url ctx = some r →
      r.filePath = ctx.mediaOutputDir ∨
        (ctx.mediaOutputDir.data ++ ['/']) <+: r.filePath.data) := by
  have part1 : ∀ (url : String) (ctx : MediaCtx) (d : List Char),
      decodeURIComponentList (rawPathOf url ctx) = some d →
      escapesRoot (normalizeList d) →
      resolveMediaPath url ctx = none := by
    intro url ctx d hdec hescape
    unfold resolveMediaPath
    split
    · rfl
    · try dsimp only
      by_cases hraw : rawPathOf url ctx = []
      · rw [if_pos hraw]
      · rw [if_neg hraw, hdec]
        try dsimp only
        have hcond : (['.', '.', '/'].isPrefixOf (normalizeList d) = true ∨
            containsSeq ['.', '.', '\\'] (normalizeList d) = true ∨
            normalizeList d = ['.', '.']) := by
          rcases hescape with h | h
          · exact Or.inl h
          · exact Or.inr (Or.inr h)
        rw [if_pos hcond]
  refine ⟨part1, ?_, ?_⟩
  · intro ctx
    have hraw : rawPathOf ⟨ctx.mediaPrefix.data ++ "../../etc/passwd".data⟩ ctx =
        "../../etc/passwd".data := by
      unfold rawPathOf
      rw [mk_data, List.drop_left, questionParts_no_q (by decide)]
    refine part1 _ _ "../../etc/passwd".data ?_ ?_
    · rw [hraw]
      decide
    · decide
  · intro url ctx r hM hres
    rw [resolveMediaPath] at hres
    split at hres
    · cases hres
    · try dsimp only at hres
      split at hres
      · cases hres
      · cases hdec : decodeURIComponentList (rawPathOf url ctx) with
        | none =>
          rw [hdec] at hres
          cases hres
        | some dec =>
          rw [hdec] at hres
          try dsimp only at hres
          split at hres
          · cases hres
          · rename_i hguard
            split at hres
            · cases hres
            · rename_i hsegne
              rw [Option.some_inj] at hres
              subst hres
              have hesc : ¬ escapesRoot (normalizeList dec) := by
                intro h
                apply hguard
                rcases h with h | h
                · exact Or.inl h
                · exact Or.inr (Or.inr h)
              have hseg_eq : (splitOnChar '/' (normalizeList dec)).filter
                  (· ≠ []) = pathSegments dec := rfl
              rcases pathSegments_shape dec hesc with hdot | hclean
              · left
                show (⟨posixJoin (ctx.mediaOutputDir.data ::
                  (splitOnChar '/' (normalizeList dec)).filter (· ≠ []))⟩ :
                    String) = ctx.mediaOutputDir
                rw [hseg_eq, hdot, posixJoin_dot hM]
              · right
                show (ctx.mediaOutputDir.data ++ ['/']) <+:
                  (⟨posixJoin (ctx.mediaOutputDir.data ::
                    (splitOnChar '/' (normalizeList dec)).filter (· ≠ []))⟩ :
                      String).data
                rw [mk_data, hseg_eq,
                  posixJoin_under hM (by rw [← hseg_eq]; exact hsegne)
                    hclean]
                exact ⟨joinSegs (pathSegments dec), by simp⟩

/-- C3 witness: an encoded-traversal URL and the literal
    `../../etc/passwd` URL resolve to `none`; a normal asset resolves to a
    file path inside the media output directory. -/
theorem C3_traversal_safety_witness :
    resolveMediaPath "https://k/media/%2e%2e%2fsecret"
      ⟨"https://k/media/", "media", "/repo/public/media"⟩ = none ∧
    resolveMediaPath ⟨"https://k/media/".data ++ "../../etc/passwd".data⟩
      ⟨"https://k/media/", "media", "/repo/public/media"⟩ = none ∧
    (("/repo/public/media/a/b.jpg" : String) = "/repo/public/media" ∨
      ("/repo/public/media".data ++ ['/']) <+:
        "/repo/public/media/a/b.jpg".data) := by
  refine ⟨?_, ?_, ?_⟩
  · exact C3_traversal_safety.1 "https://k/media/%2e%2e%2fsecret"
      ⟨"https://k/media/", "media", "/repo/public/media"⟩ "../secret".data
      (by decide) (by decide)
  · exact C3_traversal_safety.2.1 ⟨"https://k/media/", "media", "/repo/public/media"⟩
  · exact C3_traversal_safety.2.2 "https://k/media/a/b.jpg"
      ⟨"https://k/media/", "media", "/repo/public/media"⟩
      { cacheKey := "media/a/b.jpg", remoteUrl := "https://k/media/a/b.jpg",
        downloadUrl := "https://k/media/a/b.jpg",
        filePath := "/repo/public/media/a/b.jpg",
        localPath := "/media/a/b.jpg", localPathWithQuery := "/media/a/b.jpg" }
      ⟨["repo".data, "public".data, "media".data], by decide, by decide, by decide⟩
      (by decide)
